import Mathlib

/-!
Verification of the json2cpp core against its specification.

The development shallowly embeds, in Lean, the two halves of the repository:

* the read-only JSON view types of the headers
  (`include/json2cpp/json2cpp.hpp`, called the primary header below, and the
  size-optimized variants found as `unnamed/part_003`, `unnamed/part_004`
  and `unnamed/part_005`), and
* the duplicate-aware tree emitter of `src/json2cpp.cpp`
  (`analyze_for_duplicates`, `StringDuplicateTracker`, `DuplicateTracker`,
  `compile_dispatch`, `generate_node_body`, `compile`).

JSON values are modelled by the inductive `JValue`.  The C++ `double`
payload of a float value is carried as an opaque token string (`floatJ`):
the whole pipeline only moves the payload around (the emitter prints it
back out, the view hands it back from `get`), so the embedding never needs
floating point arithmetic, only payload identity.
-/

/-- A parsed JSON value: the ordered tree produced by the external parser
(`nlohmann::ordered_json`), which is also the value represented by a
`basic_json` view.  Objects are ordered pair sequences; keys need not be
unique.  Integer payloads carry the signed/unsigned tag distinction of the
source (`int64_t` vs `uint64_t`). -/
inductive JValue where
  | nullJ
  | boolJ (b : Bool)
  | intJ (i : Int)
  | uintJ (u : Nat)
  | floatJ (tok : String)
  | strJ (s : String)
  | arrJ (els : List JValue)
  | objJ (prs : List (String × JValue))
deriving Repr

mutual

/-- Boolean structural equality of `JValue` (used to build decidable
equality, which the source gets for free from `operator==` on
`nlohmann::ordered_json` and from string comparison of `dump()` output). -/
def beqV : JValue → JValue → Bool
  | .nullJ, .nullJ => true
  | .boolJ a, .boolJ b => a == b
  | .intJ a, .intJ b => a == b
  | .uintJ a, .uintJ b => a == b
  | .floatJ a, .floatJ b => a == b
  | .strJ a, .strJ b => a == b
  | .arrJ a, .arrJ b => beqL a b
  | .objJ a, .objJ b => beqP a b
  | _, _ => false

/-- Boolean equality of `JValue` lists. -/
def beqL : List JValue → List JValue → Bool
  | [], [] => true
  | a :: as, b :: bs => beqV a b && beqL as bs
  | _, _ => false

/-- Boolean equality of key/value pair lists. -/
def beqP : List (String × JValue) → List (String × JValue) → Bool
  | [], [] => true
  | (ka, va) :: as, (kb, vb) :: bs => ka == kb && beqV va vb && beqP as bs
  | _, _ => false

end

mutual

theorem beqV_iff : ∀ a b, beqV a b = true ↔ a = b
  | .nullJ, .nullJ => by simp [beqV]
  | .boolJ a, .boolJ b => by simp [beqV]
  | .intJ a, .intJ b => by simp [beqV]
  | .uintJ a, .uintJ b => by simp [beqV]
  | .floatJ a, .floatJ b => by simp [beqV]
  | .strJ a, .strJ b => by simp [beqV]
  | .arrJ a, .arrJ b => by simp [beqV, beqL_iff a b]
  | .objJ a, .objJ b => by simp [beqV, beqP_iff a b]
  | .nullJ, .boolJ _ | .nullJ, .intJ _ | .nullJ, .uintJ _ | .nullJ, .floatJ _
  | .nullJ, .strJ _ | .nullJ, .arrJ _ | .nullJ, .objJ _
  | .boolJ _, .nullJ | .boolJ _, .intJ _ | .boolJ _, .uintJ _ | .boolJ _, .floatJ _
  | .boolJ _, .strJ _ | .boolJ _, .arrJ _ | .boolJ _, .objJ _
  | .intJ _, .nullJ | .intJ _, .boolJ _ | .intJ _, .uintJ _ | .intJ _, .floatJ _
  | .intJ _, .strJ _ | .intJ _, .arrJ _ | .intJ _, .objJ _
  | .uintJ _, .nullJ | .uintJ _, .boolJ _ | .uintJ _, .intJ _ | .uintJ _, .floatJ _
  | .uintJ _, .strJ _ | .uintJ _, .arrJ _ | .uintJ _, .objJ _
  | .floatJ _, .nullJ | .floatJ _, .boolJ _ | .floatJ _, .intJ _ | .floatJ _, .uintJ _
  | .floatJ _, .strJ _ | .floatJ _, .arrJ _ | .floatJ _, .objJ _
  | .strJ _, .nullJ | .strJ _, .boolJ _ | .strJ _, .intJ _ | .strJ _, .uintJ _
  | .strJ _, .floatJ _ | .strJ _, .arrJ _ | .strJ _, .objJ _
  | .arrJ _, .nullJ | .arrJ _, .boolJ _ | .arrJ _, .intJ _ | .arrJ _, .uintJ _
  | .arrJ _, .floatJ _ | .arrJ _, .strJ _ | .arrJ _, .objJ _
  | .objJ _, .nullJ | .objJ _, .boolJ _ | .objJ _, .intJ _ | .objJ _, .uintJ _
  | .objJ _, .floatJ _ | .objJ _, .strJ _ | .objJ _, .arrJ _ => by simp [beqV]

theorem beqL_iff : ∀ a b, beqL a b = true ↔ a = b
  | [], [] => by simp [beqL]
  | a :: as, b :: bs => by
      simp [beqL, beqV_iff a b, beqL_iff as bs]
  | [], _ :: _ => by simp [beqL]
  | _ :: _, [] => by simp [beqL]

theorem beqP_iff : ∀ a b, beqP a b = true ↔ a = b
  | [], [] => by simp [beqP]
  | (ka, va) :: as, (kb, vb) :: bs => by
      simp [beqP, beqV_iff va vb, beqP_iff as bs]
  | [], _ :: _ => by simp [beqP]
  | _ :: _, [] => by simp [beqP]

end

instance : DecidableEq JValue := fun a b => decidable_of_iff _ (beqV_iff a b)

/-! ## Error conditions of the view types

Each distinct failure mode of the headers is modelled by one constructor.
`ub` stands for an out-of-bounds read through the primary header's `span`,
whose `operator[]` performs no bounds check (so `std::out_of_range` is never
actually thrown there); `invalidAccess` is `part_005`'s single combined
"Invalid array access" error. -/
inductive JErr where
  | typeMismatch
  | keyNotFound
  | outOfRange
  | invalidAccess
  | ub
deriving DecidableEq, Repr

/-- Result payload of the numeric `get<T>()` branch: the stored number from
whichever numeric tag was active (the `static_cast` to the requested
arithmetic type is applied to exactly this payload). -/
inductive NumV where
  | ofInt (i : Int)
  | ofUInt (u : Nat)
  | ofFloat (tok : String)
deriving DecidableEq, Repr

/-! ## Primary header (`include/json2cpp/json2cpp.hpp`), `basic_json` -/

/-- Type predicate `is_object`. -/
def isObjB : JValue → Bool
  | .objJ _ => true
  | _ => false

/-- Type predicate `is_array`. -/
def isArrB : JValue → Bool
  | .arrJ _ => true
  | _ => false

/-- Scalar (non-structured, non-null) values: boolean, numbers, string. -/
def isScalarB : JValue → Bool
  | .boolJ _ => true
  | .intJ _ => true
  | .uintJ _ => true
  | .floatJ _ => true
  | .strJ _ => true
  | _ => false

/-- Primary header `basic_json::size()`: 0 for null, pair count for object,
element count for array, and 1 for everything else (including strings). -/
def hppSize : JValue → Nat
  | .nullJ => 0
  | .objJ prs => prs.length
  | .arrJ els => els.length
  | _ => 1

/-- Primary header `basic_json::empty()`, defined as `size() == 0`. -/
def hppEmpty (v : JValue) : Bool := hppSize v == 0

/-- Primary header `basic_json::operator[](std::size_t)`: only arrays are
accepted; anything else throws "value is not an array type".  On an array
the element is read through `span::operator[]`, which performs no bounds
check, so an out-of-range index is an out-of-bounds read (`ub`) rather than
the `std::out_of_range` the surrounding `try`/`catch` was written for. -/
def hppIndex : JValue → Nat → Except JErr JValue
  | .arrJ els, idx =>
    match els.get? idx with
    | some e => .ok e
    | none => .error .ub
  | _, _ => .error .typeMismatch

/-- Primary header iterator dereference `operator*` at index `i`: the `i`-th
element of an array, the `i`-th pair's value of an object, and the parent
value itself for every other type. -/
def hppDeref : JValue → Nat → Except JErr JValue
  | .arrJ els, i => hppIndex (.arrJ els) i
  | .objJ prs, i =>
    match prs.get? i with
    | some p => .ok p.2
    | none => .error .ub
  | v, _ => .ok v

/-- Primary header iterator `key()` at index `i`: the `i`-th pair's key for
an object, and a thrown "json value is not an object, it has no key" for
every other type. -/
def hppKey : JValue → Nat → Except JErr String
  | .objJ prs, i =>
    match prs.get? i with
    | some p => .ok p.1
    | none => .error .ub
  | _, _ => .error .typeMismatch

/-- Iterator position returned by the primary header's `begin()` (index 0). -/
def hppBegin (_ : JValue) : Nat := 0

/-- Iterator position returned by the primary header's `end()`
(index `size()`). -/
def hppEnd (v : JValue) : Nat := hppSize v

/-- Scan loop of the primary header's `find`, from iterator position `i`
with `cnt` positions left before `end()`: compares `itr.key()` against the
searched key at every position, so it inherits `key()`'s failure on
non-object values. -/
def hppFindFrom (v : JValue) (key : String) : Nat → Nat → Except JErr (Option Nat)
  | _, 0 => .ok none
  | i, cnt + 1 =>
    match hppKey v i with
    | .error e => .error e
    | .ok k => if k = key then .ok (some i) else hppFindFrom v key (i + 1) cnt

/-- Primary header `basic_json::find(key)`: iterates `begin()`/`end()` and
returns the position of the first pair whose key matches, or `none` for the
`end()` iterator. -/
def hppFind (v : JValue) (key : String) : Except JErr (Option Nat) :=
  hppFindFrom v key (hppBegin v) (hppSize v)

/-- Primary header `basic_json::count(key)`: 1 or 0 via `find` on objects,
0 for every other type. -/
def hppCount (v : JValue) (key : String) : Except JErr Nat :=
  if isObjB v then
    match hppFind v key with
    | .error e => .error e
    | .ok none => .ok 0
    | .ok (some _) => .ok 1
  else .ok 0

/-- Primary header `basic_json::at(key)`: linear scan of the object's pairs
(its own loop, not `find`); "Key not found" when absent, "value is not an
object type" on a non-object. -/
def hppAt : JValue → String → Except JErr JValue
  | .objJ prs, key =>
    match prs.find? (fun p => p.1 = key) with
    | some p => .ok p.2
    | none => .error .keyNotFound
  | _, _ => .error .typeMismatch

/-- Primary header `get<T>()` for an arithmetic `T` (`std::uint64_t`,
`std::int64_t` or `double`): accepts whichever numeric tag is active, in
source order uinteger, integer, floating point, and hands the stored
payload to the cast; every other tag throws. -/
def hppGetNum : JValue → Except JErr NumV
  | .uintJ u => .ok (.ofUInt u)
  | .intJ i => .ok (.ofInt i)
  | .floatJ tok => .ok (.ofFloat tok)
  | _ => .error .typeMismatch

/-- Primary header `get<T>()` for a string-like `T`: requires the String
tag. -/
def hppGetStr : JValue → Except JErr String
  | .strJ s => .ok s
  | _ => .error .typeMismatch

/-- Primary header `get<bool>()`: requires the Boolean tag. -/
def hppGetBool : JValue → Except JErr Bool
  | .boolJ b => .ok b
  | _ => .error .typeMismatch

/-- Primary header `get<std::nullptr_t>()`: requires the Null tag. -/
def hppGetNull : JValue → Except JErr Unit
  | .nullJ => .ok ()
  | _ => .error .typeMismatch

/-! ## Size-optimized variant `unnamed/part_003` (`StringStorage` revision) -/

/-- Variant `part_003` `size()`: pair count for object, element count for
array, string length for string, 0 for null, 1 for the remaining scalar
types. -/
def v3Size : JValue → Nat
  | .objJ prs => prs.length
  | .arrJ els => els.length
  | .strJ s => s.length
  | .nullJ => 0
  | _ => 1

/-- Variant `part_003` `empty()`, defined as `size() == 0`. -/
def v3Empty (v : JValue) : Bool := v3Size v == 0

/-- Variant `part_003` `find(key)`: `end()` (here `none`) immediately for a
non-object, otherwise the position of the first pair whose key matches.
Total: never fails. -/
def v3Find : JValue → String → Option Nat
  | .objJ prs, key => prs.findIdx? (fun p => p.1 = key)
  | _, _ => none

/-- Variant `part_003` `at(key)`: `find`, then "Key not found"
(`std::out_of_range`) when `find` returned `end()`, value of the found pair
otherwise. -/
def v3At (v : JValue) (key : String) : Except JErr JValue :=
  match v, v3Find v key with
  | .objJ prs, some i =>
    match prs.get? i with
    | some p => .ok p.2
    | none => .error .ub
  | _, _ => .error .keyNotFound

/-- Variant `part_003` `contains(key)`: false for a non-object, otherwise
`find(key) != end()`. -/
def v3Contains (v : JValue) (key : String) : Bool :=
  if isObjB v then v3Find v key |>.isSome else false

/-- Variant `part_003` `get<ValueType>()` for non-bool arithmetic types:
uinteger, integer then float tags accepted, payload handed to the cast. -/
def v3GetNum : JValue → Except JErr NumV
  | .uintJ u => .ok (.ofUInt u)
  | .intJ i => .ok (.ofInt i)
  | .floatJ tok => .ok (.ofFloat tok)
  | _ => .error .typeMismatch

/-- Variant `part_003` `get<bool>()` (checked before the arithmetic
branch): requires the Boolean tag. -/
def v3GetBool : JValue → Except JErr Bool
  | .boolJ b => .ok b
  | _ => .error .typeMismatch

/-- Variant `part_003` `get<string_view>()` via `getString()`: requires the
String tag. -/
def v3GetStr : JValue → Except JErr String
  | .strJ s => .ok s
  | _ => .error .typeMismatch

/-- Variant `part_003` `get<std::nullptr_t>()`: requires the Null tag. -/
def v3GetNull : JValue → Except JErr Unit
  | .nullJ => .ok ()
  | _ => .error .typeMismatch

/-! ## Variant `unnamed/part_004` (packed type-and-length revision) -/

/-- Variant `part_004` `size()`: stored length for structured and string
values, 0 for null, 1 otherwise. -/
def p4Size : JValue → Nat
  | .objJ prs => prs.length
  | .arrJ els => els.length
  | .strJ s => s.length
  | .nullJ => 0
  | _ => 1

/-- Variant `part_004` `empty()`, defined as `size() == 0`. -/
def p4Empty (v : JValue) : Bool := p4Size v == 0

/-- Variant `part_004` `operator[](size_t)`: bounds-checked positional
access on arrays (element) and objects (pair's value), throwing
`std::out_of_range` past the end, and "JSON value is not a container" on
any other type. -/
def p4Index : JValue → Nat → Except JErr JValue
  | .arrJ els, idx =>
    if h : idx < els.length then .ok (els.get ⟨idx, h⟩) else .error .outOfRange
  | .objJ prs, idx =>
    if h : idx < prs.length then .ok (prs.get ⟨idx, h⟩).2 else .error .outOfRange
  | _, _ => .error .typeMismatch

/-- Variant `part_004` `operator==(string_view)`: false unless the String
tag is active, otherwise content comparison. -/
def p4StrEq : JValue → String → Bool
  | .strJ s, other => s = other
  | _, _ => false

/-- Variant `part_004` `find(key)`: null pointer (`none`) for a non-object,
otherwise a pointer to the first matching pair's value. -/
def p4Find : JValue → String → Option JValue
  | .objJ prs, key => (prs.find? (fun p => p.1 = key)).map (·.2)
  | _, _ => none

/-- Variant `part_004` `contains(key)`: `find(key) != nullptr`. -/
def p4Contains (v : JValue) (key : String) : Bool :=
  (p4Find v key).isSome

/-- Variant `part_004` `at(key)`: "JSON value is not an object" on a
non-object, otherwise `find`, with "Key not found" on a null result. -/
def p4At (v : JValue) (key : String) : Except JErr JValue :=
  if isObjB v then
    match p4Find v key with
    | some w => .ok w
    | none => .error .keyNotFound
  else .error .typeMismatch

/-! ## Variant `unnamed/part_005` -/

/-- Variant `part_005` `size()`: 0 for null, pair count for object,
element count for array, and 1 for everything else (strings included,
which take the final `return 1` branch like the other primitives). -/
def p5Size : JValue → Nat
  | .nullJ => 0
  | .objJ prs => prs.length
  | .arrJ els => els.length
  | _ => 1

/-- Variant `part_005` `empty()`, defined as `size() == 0`. -/
def p5Empty (v : JValue) : Bool := p5Size v == 0

/-- Variant `part_005` `operator[](size_t)`: one combined "Invalid array
access" error both for non-arrays and for an index past the end. -/
def p5Index : JValue → Nat → Except JErr JValue
  | .arrJ els, idx =>
    if h : idx < els.length then .ok (els.get ⟨idx, h⟩) else .error .invalidAccess
  | _, _ => .error .invalidAccess

/-! ## Equality against native values (claim C8)

Only the string comparison (`p4StrEq`) exists in the provided sources.  The
boolean/integer/float comparisons the specification describes belong to a
revision of the header that is not among the provided files, so they are
modelled from the spec. -/

/-- The numeric content of a value, when a numeric integer tag is active,
as a mathematical integer (ignoring the signed/unsigned tag split). -/
def asInt : JValue → Option Int
  | .intJ i => some i
  | .uintJ u => some (u : Int)
  | _ => none

/-- Modelled from the spec: direct equality of a Value against a native
unsigned integer (the `operator==(std::uint64_t)` overload absent from the
provided headers).  "comparing against an unsigned literal also matches a
non-negative Integer-tagged value ... by value — not by tag identity". -/
def specEqUInt (v : JValue) (u : Nat) : Bool :=
  match v with
  | .uintJ w => w == u
  | .intJ i => i == (u : Int)
  | _ => false

/-- Modelled from the spec: direct equality of a Value against a native
signed integer, with the symmetric cross-sign match ("and vice versa"). -/
def specEqInt (v : JValue) (i : Int) : Bool :=
  match v with
  | .intJ j => j == i
  | .uintJ u => (u : Int) == i
  | _ => false

/-- Modelled from the spec: direct equality of a Value against a native
boolean; the active tag must be Boolean and the values equal. -/
def specEqBool (v : JValue) (b : Bool) : Bool :=
  match v with
  | .boolJ c => c == b
  | _ => false

/-- Modelled from the spec: direct equality of a Value against a native
floating-point value; the active tag must be Float and the payloads equal
(payloads are the opaquely carried doubles). -/
def specEqFloat (v : JValue) (tok : String) : Bool :=
  match v with
  | .floatJ t => t == tok
  | _ => false

/-! ## The duplicate-aware tree emitter (`src/json2cpp.cpp`)

The emitter is embedded as follows.

* `occsOf` is `analyze_for_duplicates`: it returns, per node-kind, the list
  of all occurrences that the discovery pass feeds into the trackers (one
  list entry per `track`/`count_string` call, in traversal order).  A
  tracker's `counts[sig]` is `List.count sig` of the corresponding list.
* Signatures: the source keys every tracker map by `value.dump()` of the
  subtree (for the pair tracker, of the one-pair object `pair_rep`).  For
  trees produced by the external parser, equality of `dump()` strings
  within one tracker coincides with structural equality of the subtrees
  (nlohmann's canonical serialization is injective: negative numbers are
  exactly the Integer-tagged ones, floats always print with a '.' or an
  exponent, strings are quoted), so signatures are modelled by the subtree
  itself — for the pair tracker by the `(key, value)` pair — and the spec
  treats this serializer as an external capability with exactly this
  no-collision property.
* `prepare_variables`/`generate_definitions` iterate an `unordered_map` in
  unspecified order, assigning `shared_<kind>_<counter>` names.  The model
  numbers each duplicated signature by its position in `dupList`, a
  deduplicated list of the duplicated signatures — a deterministic choice
  of the unspecified enumeration order; every claim is insensitive to it.
  The `fmt` name strings are injective images of (kind, counter), so names
  are modelled by the structured type `DName`.
* Emitted lines are modelled by `CDef` (one constructor per shape of
  definition the generator prints), and the expression strings returned by
  `compile_dispatch`/`generate_node_body` by `CExpr`.
-/

/-- Occurrence lists accumulated by the discovery pass, one per tracker:
strings (`StringDuplicateTracker`), objects, arrays and key/value pairs
(the three `DuplicateTracker`s). -/
structure Occs where
  strs : List String
  objs : List JValue
  arrs : List JValue
  pairsL : List (String × JValue)
deriving Repr

/-- The empty occurrence record. -/
def noOccs : Occs := ⟨[], [], [], []⟩

mutual

/-- Discovery pass `analyze_for_duplicates`: an object is tracked in the
object tracker, then per pair the key string is counted, the pair tracked,
and the value visited; an array is tracked in the array tracker and its
items visited; a string value is counted in the string tracker. -/
def occsOf : JValue → Occs
  | .objJ prs =>
    let o := occsPairs prs
    { o with objs := .objJ prs :: o.objs }
  | .arrJ els =>
    let o := occsElems els
    { o with arrs := .arrJ els :: o.arrs }
  | .strJ s => { noOccs with strs := [s] }
  | _ => noOccs

/-- Discovery of an object's pair list (the `for` loop over `value`). -/
def occsPairs : List (String × JValue) → Occs
  | [] => noOccs
  | (k, v) :: rest =>
    let o1 := occsOf v
    let o2 := occsPairs rest
    { strs := k :: (o1.strs ++ o2.strs)
      objs := o1.objs ++ o2.objs
      arrs := o1.arrs ++ o2.arrs
      pairsL := (k, v) :: (o1.pairsL ++ o2.pairsL) }

/-- Discovery of an array's element list. -/
def occsElems : List JValue → Occs
  | [] => noOccs
  | v :: rest =>
    let o1 := occsOf v
    let o2 := occsElems rest
    { strs := o1.strs ++ o2.strs
      objs := o1.objs ++ o2.objs
      arrs := o1.arrs ++ o2.arrs
      pairsL := o1.pairsL ++ o2.pairsL }

end

/-- The duplicated members of an occurrence list, without repetition: the
signatures for which `prepare_variables`/`generate_definitions` create a
shared name (`count > 1`). -/
def dupList {α : Type} [DecidableEq α] (l : List α) : List α :=
  l.dedup.filter (fun x => 2 ≤ l.count x)

/-- Names of emitted definitions, one constructor per name family printed
by the generator: `shared_str_k`, `shared_obj_k`, `shared_arr_k`,
`shared_pair_k` and `object_data_n`.  The printed strings are injective
images of these (the prefixes differ pairwise and the counter is printed in
full). -/
inductive DName where
  | str (k : Nat)
  | obj (k : Nat)
  | arr (k : Nat)
  | pr (k : Nat)
  | dataN (n : Nat)
deriving DecidableEq, Repr

/-- Expression strings returned by `compile_dispatch` /
`generate_node_body`: scalar literals, a string literal, a reference to a
shared definition by name, and the `object_t{object_data_n}` /
`array_t{object_data_n}` wrappers. -/
inductive CExpr where
  | nullL
  | boolL (b : Bool)
  | intL (i : Int)
  | uintL (u : Nat)
  | floatL (tok : String)
  | strL (s : String)
  | ref (n : DName)
  | objectOf (n : Nat)
  | arrayOf (n : Nat)
deriving DecidableEq, Repr

/-- One entry of an emitted `object_data_n` pair array: either a reference
to a shared `shared_pair_k` definition or an inline
`value_pair_t{key, value}`. -/
inductive Entry where
  | pref (k : Nat)
  | pinl (key : CExpr) (val : CExpr)
deriving DecidableEq, Repr

/-- Payload of an `object_data_n` definition: a pair array (for an object)
or a json array (for an array). -/
inductive Payload where
  | objP (entries : List Entry)
  | arrP (els : List CExpr)
deriving DecidableEq, Repr

/-- One emitted definition line: a shared string definition, a shared
object/array definition (`shared_obj_k` / `shared_arr_k`, wrapping a node
body), a shared pair definition, or an `object_data_n` backing array. -/
inductive CDef where
  | strD (k : Nat) (content : String)
  | sharedD (n : DName) (body : CExpr)
  | pairD (k : Nat) (key : CExpr) (val : CExpr)
  | dataD (n : Nat) (payload : Payload)
deriving DecidableEq, Repr

/-- The name a definition line binds. -/
def defName : CDef → DName
  | .strD k _ => .str k
  | .sharedD n _ => n
  | .pairD k _ _ => .pr k
  | .dataD n _ => .dataN n

/-- The tracker state after the discovery and naming passes: per kind, the
deduplicated list of duplicated signatures.  A signature `s` is shared when
it is a member; its assigned counter is its index. -/
structure Ctx where
  sObjs : List JValue
  sArrs : List JValue
  sPairs : List (String × JValue)
  sStrs : List String
deriving Repr

/-- Trackers obtained by running the discovery pass on document `R` and
then `prepare_variables` / `generate_definitions`. -/
def mkCtx (R : JValue) : Ctx :=
  let o := occsOf R
  { sObjs := dupList o.objs
    sArrs := dupList o.arrs
    sPairs := dupList o.pairsL
    sStrs := dupList o.strs }

/-- Mutable emission state: the `obj_count` counter, the `lines` output
vector, and the three `processed_signatures` sets. -/
structure EState where
  objCount : Nat
  lines : List CDef
  pObj : List JValue
  pArr : List JValue
  pPair : List (String × JValue)
deriving Repr

/-- `StringDuplicateTracker::get_string_representation`: the shared name
when the string got one, the literal otherwise. -/
def strRepr (c : Ctx) (s : String) : CExpr :=
  if s ∈ c.sStrs then .ref (.str (c.sStrs.indexOf s)) else .strL s

mutual

/-- `compile_dispatch`: for a shared object/array signature, return the
shared name, emitting its definition first if this is the first encounter
(mark as processed, generate the body, append the definition); for an
unshared object/array, inline the node body; leaf scalars become literal
expressions, strings go through `get_string_representation`. -/
def dispatch (c : Ctx) (v : JValue) (st : EState) : CExpr × EState :=
  match v with
  | .objJ prs =>
    if .objJ prs ∈ c.sObjs then
      let nm := DName.obj (c.sObjs.indexOf (.objJ prs))
      if .objJ prs ∈ st.pObj then (.ref nm, st)
      else
        let st1 := { st with pObj := .objJ prs :: st.pObj }
        let (body, st2) := genBody c (.objJ prs) st1
        (.ref nm, { st2 with lines := st2.lines ++ [.sharedD nm body] })
    else genBody c (.objJ prs) st
  | .arrJ els =>
    if .arrJ els ∈ c.sArrs then
      let nm := DName.arr (c.sArrs.indexOf (.arrJ els))
      if .arrJ els ∈ st.pArr then (.ref nm, st)
      else
        let st1 := { st with pArr := .arrJ els :: st.pArr }
        let (body, st2) := genBody c (.arrJ els) st1
        (.ref nm, { st2 with lines := st2.lines ++ [.sharedD nm body] })
    else genBody c (.arrJ els) st
  | .floatJ tok => (.floatL tok, st)
  | .uintJ u => (.uintL u, st)
  | .intJ i => (.intL i, st)
  | .boolJ b => (.boolL b, st)
  | .strJ s => (strRepr c s, st)
  | .nullJ => (.nullL, st)
termination_by (sizeOf v, 1)

/-- `generate_node_body`: grab and bump `obj_count`, emit the entries or
elements, append the `object_data_n` definition, and return the
`object_t`/`array_t` wrapper expression.  (On a non-container the source
returns an empty string; that branch is unreachable from
`compile_dispatch`.) -/
def genBody (c : Ctx) (v : JValue) (st : EState) : CExpr × EState :=
  let n := st.objCount
  let st1 := { st with objCount := st.objCount + 1 }
  match v with
  | .objJ prs =>
    let (entries, st2) := emitEntries c prs st1
    (.objectOf n, { st2 with lines := st2.lines ++ [.dataD n (.objP entries)] })
  | .arrJ els =>
    let (es, st2) := emitElems c els st1
    (.arrayOf n, { st2 with lines := st2.lines ++ [.dataD n (.arrP es)] })
  | _ => (.nullL, st1)
termination_by (sizeOf v, 0)

/-- The object branch of `generate_node_body`'s pair loop: a shared pair
signature yields a reference entry (emitting the `shared_pair_k` definition
at the first encounter, key representation first, then the dispatched
value); an unshared pair yields an inline `value_pair_t` entry. -/
def emitEntries (c : Ctx) (prs : List (String × JValue)) (st : EState) :
    List Entry × EState :=
  match prs with
  | [] => ([], st)
  | (k, v) :: rest =>
    if (k, v) ∈ c.sPairs then
      let pk := c.sPairs.indexOf (k, v)
      if (k, v) ∈ st.pPair then
        let (es, st2) := emitEntries c rest st
        (.pref pk :: es, st2)
      else
        let st1 := { st with pPair := (k, v) :: st.pPair }
        let key := strRepr c k
        let (ve, st2) := dispatch c v st1
        let st3 := { st2 with lines := st2.lines ++ [.pairD pk key ve] }
        let (es, st4) := emitEntries c rest st3
        (.pref pk :: es, st4)
    else
      let key := strRepr c k
      let (ve, st1) := dispatch c v st
      let (es, st2) := emitEntries c rest st1
      (.pinl key ve :: es, st2)
termination_by (sizeOf prs, 2)

/-- The array branch of `generate_node_body`'s element loop. -/
def emitElems (c : Ctx) (els : List JValue) (st : EState) : List CExpr × EState :=
  match els with
  | [] => ([], st)
  | v :: rest =>
    let (e, st1) := dispatch c v st
    let (es, st2) := emitElems c rest st1
    (e :: es, st2)
termination_by (sizeOf els, 2)

end

/-- The shared string definitions emitted up front by
`generate_definitions`, numbering from `i`. -/
def strDefs : Nat → List String → List CDef
  | _, [] => []
  | i, s :: rest => .strD i s :: strDefs (i + 1) rest

/-- The output of `compile` that the claims are about: the emitted
definition lines of the implementation stream, and the root expression
wrapped into the final `document` definition. -/
structure CompileOut where
  lines : List CDef
  root : CExpr
deriving Repr

/-- `compile(document_name, json)`: run the discovery pass and the naming
passes, emit the shared string definitions, then dispatch the root. -/
def compileJ (R : JValue) : CompileOut :=
  let c := mkCtx R
  let st0 : EState := ⟨0, strDefs 0 c.sStrs, [], [], []⟩
  let (root, st) := dispatch c R st0
  ⟨st.lines, root⟩

/-! ## Reading back the emitted definitions

To state that the compiled output reconstructs the document, the emitted
definition list is given a reference semantics: a name lookup finds the
first definition line carrying that name and interprets its body in the
prefix of lines emitted before it (exactly the set of names an emitted C++
`inline constexpr` definition can see).  The interpretation functions carry
a fuel parameter only to make the recursion through the environment
manifestly terminating; every theorem quantifies the fuel existentially. -/

/-- Find the first definition with the given name; returns the list of
lines preceding it together with the definition. -/
def lookupD : List CDef → DName → Option (List CDef × CDef)
  | [], _ => none
  | d :: rest, n =>
    if defName d = n then some ([], d)
    else
      match lookupD rest n with
      | some (pre, dd) => some (d :: pre, dd)
      | none => none

mutual

/-- Interpret an expression against an environment of definition lines. -/
def denoteE : Nat → List CDef → CExpr → Option JValue
  | 0, _, _ => none
  | _ + 1, _, .nullL => some .nullJ
  | _ + 1, _, .boolL b => some (.boolJ b)
  | _ + 1, _, .intL i => some (.intJ i)
  | _ + 1, _, .uintL u => some (.uintJ u)
  | _ + 1, _, .floatL t => some (.floatJ t)
  | _ + 1, _, .strL s => some (.strJ s)
  | f + 1, env, .ref n =>
    match lookupD env n with
    | some (_, .strD _ content) => some (.strJ content)
    | some (pre, .sharedD _ body) => denoteE f pre body
    | _ => none
  | f + 1, env, .objectOf n =>
    match lookupD env (.dataN n) with
    | some (pre, .dataD _ (.objP entries)) =>
      (denoteEntries f pre entries).map .objJ
    | _ => none
  | f + 1, env, .arrayOf n =>
    match lookupD env (.dataN n) with
    | some (pre, .dataD _ (.arrP es)) => (denoteList f pre es).map .arrJ
    | _ => none
termination_by f => f

/-- Interpret a key expression (a string literal or a shared string name)
as the key string it denotes. -/
def denoteK : Nat → List CDef → CExpr → Option String
  | 0, _, _ => none
  | _ + 1, _, .strL s => some s
  | _ + 1, env, .ref n =>
    match lookupD env n with
    | some (_, .strD _ content) => some content
    | _ => none
  | _ + 1, _, _ => none

/-- Interpret one pair-array entry as the key/value pair it denotes. -/
def denoteEntry : Nat → List CDef → Entry → Option (String × JValue)
  | 0, _, _ => none
  | f + 1, env, .pinl key val =>
    match denoteK f env key, denoteE f env val with
    | some k, some v => some (k, v)
    | _, _ => none
  | f + 1, env, .pref pk =>
    match lookupD env (.pr pk) with
    | some (pre, .pairD _ key val) =>
      match denoteK f pre key, denoteE f pre val with
      | some k, some v => some (k, v)
      | _, _ => none
    | _ => none
termination_by f => f

/-- Interpret a pair-array entry list. -/
def denoteEntries : Nat → List CDef → List Entry → Option (List (String × JValue))
  | 0, _, _ => none
  | _ + 1, _, [] => some []
  | f + 1, env, e :: rest =>
    match denoteEntry f env e, denoteEntries f env rest with
    | some p, some ps => some (p :: ps)
    | _, _ => none
termination_by f => f

/-- Interpret a json-array element list. -/
def denoteList : Nat → List CDef → List CExpr → Option (List JValue)
  | 0, _, _ => none
  | _ + 1, _, [] => some []
  | f + 1, env, e :: rest =>
    match denoteE f env e, denoteList f env rest with
    | some v, some vs => some (v :: vs)
    | _, _ => none
termination_by f => f

end

/-! ## Names referenced by emitted lines (claim C3) -/

/-- The definition names an expression mentions. -/
def refsE : CExpr → List DName
  | .ref n => [n]
  | .objectOf n => [.dataN n]
  | .arrayOf n => [.dataN n]
  | _ => []

/-- The definition names a pair-array entry mentions. -/
def refsEntry : Entry → List DName
  | .pref k => [.pr k]
  | .pinl key val => refsE key ++ refsE val

/-- The definition names a definition line mentions. -/
def refsD : CDef → List DName
  | .strD _ _ => []
  | .sharedD _ body => refsE body
  | .pairD _ key val => refsE key ++ refsE val
  | .dataD _ (.objP entries) => (entries.map refsEntry).flatten
  | .dataD _ (.arrP es) => (es.map refsE).flatten

/-- No definition line references a name that is not defined by an earlier
line: the forward-referencing-free declaration order of the spec. -/
def DefsClosed (lines : List CDef) : Prop :=
  ∀ i (h : i < lines.length),
    ∀ n ∈ refsD (lines.get ⟨i, h⟩), n ∈ (lines.take i).map defName

/-! ## Inputs accepted by the external parser

`nlohmann` tags a parsed integer literal as unsigned (`uint64_t`) exactly
when it has no minus sign, so a parser-produced tree carries the Integer
(signed) tag only on negative values.  This is also what makes the
`dump()`-string signatures of the trackers collision-free (see above). -/

mutual

/-- Decidable form of "this tree can come out of the external parser". -/
def parsedB : JValue → Bool
  | .intJ i => i < 0
  | .arrJ els => parsedLB els
  | .objJ prs => parsedPB prs
  | _ => true

/-- `parsedB` over array elements. -/
def parsedLB : List JValue → Bool
  | [] => true
  | v :: rest => parsedB v && parsedLB rest

/-- `parsedB` over object pairs. -/
def parsedPB : List (String × JValue) → Bool
  | [] => true
  | (_, v) :: rest => parsedB v && parsedPB rest

end

/-- A document accepted by the external parser. -/
def Parsed (v : JValue) : Prop := parsedB v = true

/-! ## Emission invariants

The correctness proofs thread a state invariant through the recursion of
`dispatch`/`genBody`/`emitEntries`/`emitElems`.  `Pend` is the proof-level
ghost set of signatures that are marked processed but whose definition is
still being generated (the source marks before descending); every pending
signature strictly encloses the node currently being emitted, which is what
rules out hitting a marked-but-not-yet-defined name. -/

/-- Signatures marked processed whose definitions are still being built. -/
structure Pend where
  objs : List JValue
  arrs : List JValue
  prsP : List (String × JValue)

/-- The empty pending set. -/
def pendNil : Pend := ⟨[], [], []⟩

/-- All closure conditions of an occurrence record: every duplicated
signature occurring in it has been processed. -/
def ClosedO (c : Ctx) (st : EState) (o : Occs) : Prop :=
  (∀ s ∈ o.objs, s ∈ c.sObjs → s ∈ st.pObj) ∧
  (∀ s ∈ o.arrs, s ∈ c.sArrs → s ∈ st.pArr) ∧
  (∀ p ∈ o.pairsL, p ∈ c.sPairs → p ∈ st.pPair)

/-- Well-formedness of the tracker context: each shared-signature list has
no repeats (true of `dupList` output), so the assigned counters are
injective per kind. -/
def CtxOK (c : Ctx) : Prop :=
  c.sObjs.Nodup ∧ c.sArrs.Nodup ∧ c.sPairs.Nodup ∧ c.sStrs.Nodup

/-- How an emission step may change the state: lines only grow at the end,
and every `object_data` number used by the new lines is at least the
starting counter; the counter grows; processed sets grow. -/
def ExtOK (st st' : EState) : Prop :=
  (∃ ext, st'.lines = st.lines ++ ext ∧
    ∀ d ∈ ext, ∀ m, defName d = .dataN m → st.objCount ≤ m) ∧
  st.objCount ≤ st'.objCount ∧
  (∀ x ∈ st.pObj, x ∈ st'.pObj) ∧
  (∀ x ∈ st.pArr, x ∈ st'.pArr) ∧
  (∀ x ∈ st.pPair, x ∈ st'.pPair)

/-- The state invariant, relative to the ghost pending set. -/
structure EInv (c : Ctx) (pend : Pend) (st : EState) : Prop where
  nodupN : (st.lines.map defName).Nodup
  dataLt : ∀ d ∈ st.lines, ∀ n, defName d = .dataN n → n < st.objCount
  strLook : ∀ s ∈ c.sStrs, ∃ pre,
    lookupD st.lines (.str (c.sStrs.indexOf s)) =
      some (pre, .strD (c.sStrs.indexOf s) s)
  strName : ∀ d ∈ st.lines, ∀ k content, d = .strD k content →
    content ∈ c.sStrs ∧ k = c.sStrs.indexOf content
  pObjSub : ∀ w ∈ st.pObj, w ∈ c.sObjs
  pArrSub : ∀ w ∈ st.pArr, w ∈ c.sArrs
  pPairSub : ∀ kv ∈ st.pPair, kv ∈ c.sPairs
  objName : ∀ d ∈ st.lines, ∀ k, defName d = .obj k →
    ∃ w, w ∈ st.pObj ∧ w ∉ pend.objs ∧ k = c.sObjs.indexOf w
  arrName : ∀ d ∈ st.lines, ∀ k, defName d = .arr k →
    ∃ w, w ∈ st.pArr ∧ w ∉ pend.arrs ∧ k = c.sArrs.indexOf w
  pairName : ∀ d ∈ st.lines, ∀ k, defName d = .pr k →
    ∃ kv, kv ∈ st.pPair ∧ kv ∉ pend.prsP ∧ k = c.sPairs.indexOf kv
  objDen : ∀ w ∈ st.pObj, w ∉ pend.objs → ∃ pre body f,
    lookupD st.lines (.obj (c.sObjs.indexOf w)) =
      some (pre, .sharedD (.obj (c.sObjs.indexOf w)) body) ∧
    denoteE f pre body = some w
  arrDen : ∀ w ∈ st.pArr, w ∉ pend.arrs → ∃ pre body f,
    lookupD st.lines (.arr (c.sArrs.indexOf w)) =
      some (pre, .sharedD (.arr (c.sArrs.indexOf w)) body) ∧
    denoteE f pre body = some w
  pairDen : ∀ kv ∈ st.pPair, kv ∉ pend.prsP → ∃ pre key val f,
    lookupD st.lines (.pr (c.sPairs.indexOf kv)) =
      some (pre, .pairD (c.sPairs.indexOf kv) key val) ∧
    denoteK f pre key = some kv.1 ∧ denoteE f pre val = some kv.2
  objClos : ∀ w ∈ st.pObj, w ∉ pend.objs → ClosedO c st (occsOf w)
  arrClos : ∀ w ∈ st.pArr, w ∉ pend.arrs → ClosedO c st (occsOf w)
  pairClos : ∀ kv ∈ st.pPair, kv ∉ pend.prsP → ClosedO c st (occsOf kv.2)
  closedRefs : DefsClosed st.lines

/-- Pending-size condition at a `compile_dispatch` call: every pending
object/array signature strictly encloses `v`, every pending pair's value
encloses it at least weakly (it may be `v` itself, just marked). -/
def PendD (pend : Pend) (v : JValue) : Prop :=
  (∀ w ∈ pend.objs, sizeOf v < sizeOf w) ∧
  (∀ w ∈ pend.arrs, sizeOf v < sizeOf w) ∧
  (∀ kv ∈ pend.prsP, sizeOf v ≤ sizeOf kv.2)

/-- Pending-size condition at a `generate_node_body` call: weak bounds
(the node itself may be the signature just marked pending). -/
def PendB (pend : Pend) (v : JValue) : Prop :=
  (∀ w ∈ pend.objs, sizeOf v ≤ sizeOf w) ∧
  (∀ w ∈ pend.arrs, sizeOf v ≤ sizeOf w) ∧
  (∀ kv ∈ pend.prsP, sizeOf v ≤ sizeOf kv.2)

/-- Pending-size condition for the loop elements of a node body: strict
bounds everywhere (each element is a proper subtree of the pending node). -/
def PendS (pend : Pend) (v : JValue) : Prop :=
  (∀ w ∈ pend.objs, sizeOf v < sizeOf w) ∧
  (∀ w ∈ pend.arrs, sizeOf v < sizeOf w) ∧
  (∀ kv ∈ pend.prsP, sizeOf v < sizeOf kv.2)

/-- The occurrence record of a node's children only (the node's own
signature stripped). -/
def occsChildren : JValue → Occs
  | .objJ prs => occsPairs prs
  | .arrJ els => occsElems els
  | _ => noOccs

/-- Postcondition of `compile_dispatch` on `v`: invariant and state
extension, the returned expression reads back as `v`, every duplicated
signature occurring in `v` is processed, and the expression only references
defined names. -/
def DPost (c : Ctx) (pend : Pend) (st : EState) (v : JValue)
    (r : CExpr × EState) : Prop :=
  EInv c pend r.2 ∧ ExtOK st r.2 ∧
  (∃ f, denoteE f r.2.lines r.1 = some v) ∧
  ClosedO c r.2 (occsOf v) ∧
  (∀ n ∈ refsE r.1, n ∈ r.2.lines.map defName)

/-- Postcondition of `generate_node_body` on a container `v`. -/
def BPost (c : Ctx) (pend : Pend) (st : EState) (v : JValue)
    (r : CExpr × EState) : Prop :=
  EInv c pend r.2 ∧ ExtOK st r.2 ∧
  (∃ f, denoteE f r.2.lines r.1 = some v) ∧
  ClosedO c r.2 (occsChildren v) ∧
  (∀ n ∈ refsE r.1, n ∈ r.2.lines.map defName)

/-- Postcondition of the pair loop. -/
def EPost (c : Ctx) (pend : Pend) (st : EState)
    (prs : List (String × JValue)) (r : List Entry × EState) : Prop :=
  EInv c pend r.2 ∧ ExtOK st r.2 ∧
  (∃ f, denoteEntries f r.2.lines r.1 = some prs) ∧
  ClosedO c r.2 (occsPairs prs) ∧
  (∀ e ∈ r.1, ∀ n ∈ refsEntry e, n ∈ r.2.lines.map defName)

/-- Postcondition of the element loop. -/
def LPost (c : Ctx) (pend : Pend) (st : EState)
    (els : List JValue) (r : List CExpr × EState) : Prop :=
  EInv c pend r.2 ∧ ExtOK st r.2 ∧
  (∃ f, denoteList f r.2.lines r.1 = some els) ∧
  ClosedO c r.2 (occsElems els) ∧
  (∀ e ∈ r.1, ∀ n ∈ refsE e, n ∈ r.2.lines.map defName)

/-- Type predicate `is_number` (signed integer, unsigned integer or
float tag). -/
def isNumB : JValue → Bool
  | .intJ _ => true
  | .uintJ _ => true
  | .floatJ _ => true
  | _ => false

/-- Type predicate `is_string`. -/
def isStrB : JValue → Bool
  | .strJ _ => true
  | _ => false

/-- Type predicate `is_boolean`. -/
def isBoolB : JValue → Bool
  | .boolJ _ => true
  | _ => false

/-- Type predicate `is_null`. -/
def isNullB : JValue → Bool
  | .nullJ => true
  | _ => false

/-- How many emitted lines bind the given name. -/
def defsNamed (lines : List CDef) (nm : DName) : Nat :=
  (lines.map defName).count nm

/-! ## Lemmas about the view-type models -/

theorem findIdx?_some_lt {α : Type} {p : α → Bool} {l : List α} {i : Nat}
    (h : List.findIdx? p l = some i) : i < l.length := by
  obtain ⟨hlt, -⟩ := List.findIdx?_eq_some_iff_getElem.mp h
  exact hlt

theorem hppFindFrom_obj (prs : List (String × JValue)) (key : String) :
    ∀ (cnt i : Nat), i + cnt = prs.length →
      hppFindFrom (.objJ prs) key i cnt =
        .ok (List.findIdx? (fun p => p.1 = key) (prs.drop i) i) := by
  intro cnt
  induction cnt with
  | zero =>
    intro i h
    have hd : prs.drop i = [] := by
      apply List.drop_eq_nil_of_le; omega
    rw [hd]
    simp [hppFindFrom]
  | succ m ih =>
    intro i h
    have hi : i < prs.length := by omega
    have hget : prs.get? i = some prs[i] := by
      rw [List.get?_eq_getElem?, List.getElem?_eq_getElem hi]
    have hL : hppFindFrom (.objJ prs) key i (m + 1) =
        (if prs[i].1 = key then .ok (some i)
         else hppFindFrom (.objJ prs) key (i + 1) m) := by
      simp only [hppFindFrom, hppKey, hget]
    rw [hL, List.drop_eq_getElem_cons hi, List.findIdx?_cons]
    by_cases hk : prs[i].1 = key
    · simp only [hk, if_true, decide_true_eq_true, decide_eq_true_eq, if_pos]
    · simp only [hk, if_false, decide_eq_true_eq, if_neg, not_false_iff]
      exact ih (i + 1) (by omega)

theorem hppFind_obj (prs : List (String × JValue)) (key : String) :
    hppFind (.objJ prs) key = .ok (prs.findIdx? (fun p => p.1 = key)) := by
  have h := hppFindFrom_obj prs key prs.length 0 (by omega)
  rw [hppFind, hppBegin]
  simp only [hppSize]
  rw [h, List.drop_zero]

theorem hppFind_scalar (v : JValue) (key : String) (h : isScalarB v = true) :
    hppFind v key = .error .typeMismatch := by
  cases v <;> simp_all [isScalarB, hppFind, hppBegin, hppSize, hppFindFrom, hppKey]

/-! ## Claim C4 -/

/-- Claim C4, counterexample: in the primary header `size()` on the string
value "ab" is 1, not the string length 2 the claim asserts for every
Value. -/
theorem c4_counterexample : ¬ hppSize (JValue.strJ "ab") = "ab".length := by
  decide

/-- Claim C4, amended: in every variant, `size()` returns 0 for null, the
element count for an array, the pair count for an object, and 1 for the
boolean and numeric scalars.  For a string, the size-optimized variants
`part_003` and `part_004` return the string length, while the primary
header and `part_005` return 1, as for the other scalars.  `empty()` is
defined as `size() == 0` in all four variants. -/
theorem c4_amended :
    hppSize .nullJ = 0 ∧
    (∀ els, hppSize (.arrJ els) = els.length) ∧
    (∀ prs, hppSize (.objJ prs) = prs.length) ∧
    (∀ s, hppSize (.strJ s) = 1) ∧
    (∀ b, hppSize (.boolJ b) = 1) ∧
    (∀ i, hppSize (.intJ i) = 1) ∧
    (∀ u, hppSize (.uintJ u) = 1) ∧
    (∀ t, hppSize (.floatJ t) = 1) ∧
    v3Size .nullJ = 0 ∧
    (∀ els, v3Size (.arrJ els) = els.length) ∧
    (∀ prs, v3Size (.objJ prs) = prs.length) ∧
    (∀ s, v3Size (.strJ s) = s.length) ∧
    (∀ b, v3Size (.boolJ b) = 1) ∧
    (∀ i, v3Size (.intJ i) = 1) ∧
    (∀ u, v3Size (.uintJ u) = 1) ∧
    (∀ t, v3Size (.floatJ t) = 1) ∧
    p4Size .nullJ = 0 ∧
    (∀ els, p4Size (.arrJ els) = els.length) ∧
    (∀ prs, p4Size (.objJ prs) = prs.length) ∧
    (∀ s, p4Size (.strJ s) = s.length) ∧
    (∀ b, p4Size (.boolJ b) = 1) ∧
    (∀ i, p4Size (.intJ i) = 1) ∧
    (∀ u, p4Size (.uintJ u) = 1) ∧
    (∀ t, p4Size (.floatJ t) = 1) ∧
    p5Size .nullJ = 0 ∧
    (∀ els, p5Size (.arrJ els) = els.length) ∧
    (∀ prs, p5Size (.objJ prs) = prs.length) ∧
    (∀ s, p5Size (.strJ s) = 1) ∧
    (∀ b, p5Size (.boolJ b) = 1) ∧
    (∀ i, p5Size (.intJ i) = 1) ∧
    (∀ u, p5Size (.uintJ u) = 1) ∧
    (∀ t, p5Size (.floatJ t) = 1) ∧
    (∀ v, hppEmpty v = true ↔ hppSize v = 0) ∧
    (∀ v, v3Empty v = true ↔ v3Size v = 0) ∧
    (∀ v, p4Empty v = true ↔ p4Size v = 0) ∧
    (∀ v, p5Empty v = true ↔ p5Size v = 0) := by
  refine ⟨rfl, fun _ => rfl, fun _ => rfl, fun _ => rfl, fun _ => rfl,
    fun _ => rfl, fun _ => rfl, fun _ => rfl, rfl, fun _ => rfl, fun _ => rfl,
    fun _ => rfl, fun _ => rfl, fun _ => rfl, fun _ => rfl, fun _ => rfl,
    rfl, fun _ => rfl, fun _ => rfl, fun _ => rfl, fun _ => rfl,
    fun _ => rfl, fun _ => rfl, fun _ => rfl,
    rfl, fun _ => rfl, fun _ => rfl, fun _ => rfl, fun _ => rfl,
    fun _ => rfl, fun _ => rfl, fun _ => rfl,
    fun v => ?_, fun v => ?_, fun v => ?_, fun v => ?_⟩ <;>
    simp [hppEmpty, v3Empty, p4Empty, p5Empty]

/-! ## Claim C5 -/

/-- Claim C5, counterexample: in the primary header, positional access on
an object fails with the type-mismatch error even though the index is in
range — the claim asserts positional access is valid on objects. -/
theorem c5_counterexample :
    hppIndex (JValue.objJ [("a", JValue.nullJ)]) 0 = Except.error JErr.typeMismatch ∧
    0 < hppSize (JValue.objJ [("a", JValue.nullJ)]) := by
  exact ⟨rfl, by decide⟩

/-- Claim C5, amended: the claim's contract holds in variant `part_004`
(arrays and objects positionally, out-of-range past `size()`, type
mismatch otherwise).  In the primary header positional access is
array-only: objects fail with the type-mismatch error, and past-the-end
indices on arrays are an unchecked out-of-bounds read, not an out-of-range
failure.  In variant `part_005` it is also array-only, with one combined
error for both the wrong-type and the out-of-range condition. -/
theorem c5_amended :
    (∀ els idx, ∀ h : idx < els.length,
      p4Index (.arrJ els) idx = .ok (els.get ⟨idx, h⟩)) ∧
    (∀ els idx, els.length ≤ idx → p4Index (.arrJ els) idx = .error .outOfRange) ∧
    (∀ prs idx, ∀ h : idx < prs.length,
      p4Index (.objJ prs) idx = .ok (prs.get ⟨idx, h⟩).2) ∧
    (∀ prs idx, prs.length ≤ idx → p4Index (.objJ prs) idx = .error .outOfRange) ∧
    (∀ v idx, isArrB v = false → isObjB v = false →
      p4Index v idx = .error .typeMismatch) ∧
    (∀ v idx, isArrB v = false → hppIndex v idx = .error .typeMismatch) ∧
    (∀ els idx, ∀ h : idx < els.length,
      hppIndex (.arrJ els) idx = .ok (els.get ⟨idx, h⟩)) ∧
    (∀ els idx, els.length ≤ idx → hppIndex (.arrJ els) idx = .error .ub) ∧
    (∀ v idx, isArrB v = false → p5Index v idx = .error .invalidAccess) ∧
    (∀ els idx, els.length ≤ idx → p5Index (.arrJ els) idx = .error .invalidAccess) ∧
    (∀ els idx, ∀ h : idx < els.length,
      p5Index (.arrJ els) idx = .ok (els.get ⟨idx, h⟩)) := by
  refine ⟨?_, ?_, ?_, ?_, ?_, ?_, ?_, ?_, ?_, ?_, ?_⟩
  · intro els idx h; simp [p4Index, h]
  · intro els idx h; simp [p4Index]; omega
  · intro prs idx h; simp [p4Index, h]
  · intro prs idx h; simp [p4Index]; omega
  · intro v idx h1 h2; cases v <;> simp_all [isArrB, isObjB, p4Index]
  · intro v idx h; cases v <;> simp_all [isArrB, hppIndex]
  · intro els idx h
    simp [hppIndex, List.get?_eq_getElem?, List.getElem?_eq_getElem h]
  · intro els idx h
    have hn : els[idx]? = none := List.getElem?_eq_none h
    simp [hppIndex, hn]
  · intro v idx h; cases v <;> simp_all [isArrB, p5Index]
  · intro els idx h; simp [p5Index]; omega
  · intro els idx h; simp [p5Index, h]

/-! ## Claim C6 -/

/-- Claim C6, counterexample: in the primary header, `find` on a number
value raises the iterator `key()` error instead of returning the end
marker — the claim asserts `find` never fails. -/
theorem c6_counterexample :
    hppFind (JValue.uintJ 5) "k" = Except.error JErr.typeMismatch := rfl

/-- Claim C6, amended: in the primary header, `find` on an object never
fails and returns the position of the first matching pair (end marker
`none` when absent), and on null it returns the end marker, but on a
non-null non-object value it fails with the iterator `key()` type error.
In variants `part_003`/`part_004` `find` never fails — a non-object gives
the end/absent marker — and it is the primitive beneath `contains` and
keyed `at`. -/
theorem c6_amended :
    (∀ prs key, hppFind (.objJ prs) key = .ok (prs.findIdx? (fun p => p.1 = key))) ∧
    (∀ key, hppFind .nullJ key = .ok none) ∧
    (∀ v key, isScalarB v = true → hppFind v key = .error .typeMismatch) ∧
    (∀ v key, isObjB v = false → v3Find v key = none) ∧
    (∀ prs key, v3Find (.objJ prs) key = prs.findIdx? (fun p => p.1 = key)) ∧
    (∀ v key, v3Find v key = none → v3At v key = .error .keyNotFound) ∧
    (∀ prs key i, v3Find (.objJ prs) key = some i →
      ∃ h : i < prs.length, v3At (.objJ prs) key = .ok (prs.get ⟨i, h⟩).2) ∧
    (∀ v key, v3Contains v key = (v3Find v key).isSome) ∧
    (∀ v key, isObjB v = false → p4Find v key = none) ∧
    (∀ v key, p4Contains v key = (p4Find v key).isSome) ∧
    (∀ v key, isObjB v = false → p4At v key = .error .typeMismatch) ∧
    (∀ v key w, p4Find v key = some w → p4At v key = .ok w) ∧
    (∀ prs key, p4Find (.objJ prs) key = none →
      p4At (.objJ prs) key = .error .keyNotFound) := by
  refine ⟨hppFind_obj, fun key => rfl, hppFind_scalar, ?_, fun prs key => rfl,
    ?_, ?_, ?_, ?_, fun v key => rfl, ?_, ?_, ?_⟩
  · intro v key h; cases v <;> simp_all [isObjB, v3Find]
  · intro v key h
    cases v <;> first
      | rfl
      | (simp only [v3At]; rw [h])
  · intro prs key i h
    have hlt : i < prs.length := findIdx?_some_lt h
    refine ⟨hlt, ?_⟩
    simp only [v3At, v3Find] at *
    rw [h]
    simp [List.get?_eq_getElem?, List.getElem?_eq_getElem hlt]
  · intro v key; cases v <;> simp [v3Contains, isObjB, v3Find]
  · intro v key h; cases v <;> simp_all [isObjB, p4Find]
  · intro v key h; cases v <;> simp_all [isObjB, p4At]
  · intro v key w h
    cases v with
    | objJ prs =>
      simp only [p4At, isObjB, if_true]
      rw [h]
    | nullJ => exact absurd h (by simp [p4Find])
    | boolJ b => exact absurd h (by simp [p4Find])
    | intJ i => exact absurd h (by simp [p4Find])
    | uintJ u => exact absurd h (by simp [p4Find])
    | floatJ t => exact absurd h (by simp [p4Find])
    | strJ s => exact absurd h (by simp [p4Find])
    | arrJ els => exact absurd h (by simp [p4Find])
  · intro prs key h; simp_all [p4At, isObjB]

/-! ## Claim C7 -/

/-- Claim C7: `get<T>()` with numeric `T` returns the stored number from
whichever numeric tag is active; string `T` requires the String tag, bool
the Boolean tag, null the Null tag; every other tag/type combination fails
with a type error.  Shown for the primary header and for variant
`part_003` (whose `get` behaves identically on these four type families). -/
theorem c7_get :
    (∀ u, hppGetNum (.uintJ u) = .ok (.ofUInt u)) ∧
    (∀ i, hppGetNum (.intJ i) = .ok (.ofInt i)) ∧
    (∀ t, hppGetNum (.floatJ t) = .ok (.ofFloat t)) ∧
    (∀ v, isNumB v = false → hppGetNum v = .error .typeMismatch) ∧
    (∀ s, hppGetStr (.strJ s) = .ok s) ∧
    (∀ v, isStrB v = false → hppGetStr v = .error .typeMismatch) ∧
    (∀ b, hppGetBool (.boolJ b) = .ok b) ∧
    (∀ v, isBoolB v = false → hppGetBool v = .error .typeMismatch) ∧
    (hppGetNull .nullJ = .ok ()) ∧
    (∀ v, isNullB v = false → hppGetNull v = .error .typeMismatch) ∧
    (∀ u, v3GetNum (.uintJ u) = .ok (.ofUInt u)) ∧
    (∀ i, v3GetNum (.intJ i) = .ok (.ofInt i)) ∧
    (∀ t, v3GetNum (.floatJ t) = .ok (.ofFloat t)) ∧
    (∀ v, isNumB v = false → v3GetNum v = .error .typeMismatch) ∧
    (∀ s, v3GetStr (.strJ s) = .ok s) ∧
    (∀ v, isStrB v = false → v3GetStr v = .error .typeMismatch) ∧
    (∀ b, v3GetBool (.boolJ b) = .ok b) ∧
    (∀ v, isBoolB v = false → v3GetBool v = .error .typeMismatch) ∧
    (v3GetNull .nullJ = .ok ()) ∧
    (∀ v, isNullB v = false → v3GetNull v = .error .typeMismatch) := by
  refine ⟨fun _ => rfl, fun _ => rfl, fun _ => rfl, ?_, fun _ => rfl, ?_,
    fun _ => rfl, ?_, rfl, ?_, fun _ => rfl, fun _ => rfl, fun _ => rfl, ?_,
    fun _ => rfl, ?_, fun _ => rfl, ?_, rfl, ?_⟩ <;>
    (intro v h; cases v <;> simp_all [isNumB, isStrB, isBoolB, isNullB,
      hppGetNum, hppGetStr, hppGetBool, hppGetNull,
      v3GetNum, v3GetStr, v3GetBool, v3GetNull])

/-! ## Claim C8 -/

/-- Claim C8: direct equality of a Value against native values succeeds
exactly when the active tag is compatible and the values are equal.  The
string comparison is `part_004`'s `operator==(string_view)` from the
source; the integer comparisons (with cross-sign matching by value, via
`asInt`), the boolean and the float comparison are modelled from the spec
because the corresponding overloads are absent from the provided headers. -/
theorem c8_nativeEq :
    (∀ v s, p4StrEq v s = true ↔ v = .strJ s) ∧
    (∀ v u, specEqUInt v u = true ↔ asInt v = some (u : Int)) ∧
    (∀ v i, specEqInt v i = true ↔ asInt v = some i) ∧
    (∀ v b, specEqBool v b = true ↔ v = .boolJ b) ∧
    (∀ v t, specEqFloat v t = true ↔ v = .floatJ t) := by
  refine ⟨?_, ?_, ?_, ?_, ?_⟩
  · intro v s; cases v <;> simp [p4StrEq]
  · intro v u; cases v <;> simp [specEqUInt, asInt]
  · intro v i; cases v <;> simp [specEqInt, asInt]
  · intro v b; cases v <;> simp [specEqBool]
  · intro v t; cases v <;> simp [specEqFloat]

/-! ## Claim C9 -/

/-- Claim C9: `count(key)` returns 0 on every non-object without raising
an error, and on an object it returns at most 1 — `.ok 1` exactly when some
pair has the key — even when more than one stored pair matches (final
conjunct: a two-pair object with a duplicated key still counts 1). -/
theorem c9_count :
    (∀ v key, isObjB v = false → hppCount v key = .ok 0) ∧
    (∀ prs key, hppCount (.objJ prs) key =
      .ok (if prs.any (fun p => p.1 = key) then 1 else 0)) ∧
    (∀ (prs : List (String × JValue)) (key : String),
      (if prs.any (fun p => p.1 = key) then 1 else 0) ≤ 1) ∧
    hppCount (.objJ [("k", .nullJ), ("k", .boolJ true)]) "k" = .ok 1 := by
  have h2 : ∀ prs key, hppCount (.objJ prs) key =
      .ok (if prs.any (fun p => p.1 = key) then 1 else 0) := by
    intro prs key
    unfold hppCount
    simp only [isObjB, if_true]
    rw [hppFind_obj]
    have hs := @List.findIdx?_isSome _ prs (fun p => decide (p.1 = key))
    cases h : prs.findIdx? (fun p => decide (p.1 = key)) with
    | none =>
      rw [h] at hs
      simp only [Option.isSome_none] at hs
      simp [← hs]
    | some i =>
      rw [h] at hs
      simp only [Option.isSome_some] at hs
      simp [← hs]
  refine ⟨?_, h2, ?_, ?_⟩
  · intro v key h; cases v <;> simp_all [isObjB, hppCount]
  · intro prs key
    by_cases h : prs.any (fun p => p.1 = key) <;> simp [h]
  · rw [h2]; rfl

/-! ## Claim C10 -/

/-- Claim C10: in the primary header, iteration is `size()`-driven:
`begin() = end()` for null; for scalars the range has exactly one position
and dereferencing yields the value itself; for arrays and objects
dereferencing position `i` yields the `i`-th element / the `i`-th pair's
value. -/
theorem c10_iteration :
    hppBegin .nullJ = hppEnd .nullJ ∧
    (∀ v, isScalarB v = true →
      hppEnd v = hppBegin v + 1 ∧ hppDeref v (hppBegin v) = .ok v) ∧
    (∀ els i, ∀ h : i < els.length,
      hppDeref (.arrJ els) i = .ok (els.get ⟨i, h⟩)) ∧
    (∀ prs i, ∀ h : i < prs.length,
      hppDeref (.objJ prs) i = .ok (prs.get ⟨i, h⟩).2) := by
  refine ⟨rfl, ?_, ?_, ?_⟩
  · intro v h; cases v <;> simp_all [isScalarB, hppBegin, hppEnd, hppSize, hppDeref]
  · intro els i h
    simp [hppDeref, hppIndex, List.get?_eq_getElem?, List.getElem?_eq_getElem h]
  · intro prs i h
    simp [hppDeref, List.get?_eq_getElem?, List.getElem?_eq_getElem h]

/-! ## Lemmas: duplicate lists and name lookup -/

theorem mem_dupList {α : Type} [DecidableEq α] {l : List α} {x : α} :
    x ∈ dupList l ↔ x ∈ l ∧ 2 ≤ l.count x := by
  simp [dupList, List.mem_filter, List.mem_dedup]

theorem nodup_dupList {α : Type} [DecidableEq α] (l : List α) :
    (dupList l).Nodup :=
  List.Nodup.filter _ (List.nodup_dedup l)

theorem indexOf_inj2 {α : Type} [BEq α] [LawfulBEq α] :
    ∀ {l : List α} {x y : α}, x ∈ l → y ∈ l →
      List.indexOf x l = List.indexOf y l → x = y := by
  intro l
  induction l with
  | nil => intro x y hx _ _; simp at hx
  | cons b rest ih =>
    intro x y hx hy h
    simp only [List.indexOf, List.findIdx_cons] at h
    by_cases hxb : (b == x) = true
    · by_cases hyb : (b == y) = true
      · exact (eq_of_beq hxb).symm.trans (eq_of_beq hyb)
      · simp [hxb, hyb] at h
    · by_cases hyb : (b == y) = true
      · simp [hxb, hyb] at h
      · simp only [hxb, hyb, cond_false] at h
        have hxr : x ∈ rest := by
          rcases List.mem_cons.mp hx with heq | hm
          · exact absurd (by simp [heq]) hxb
          · exact hm
        have hyr : y ∈ rest := by
          rcases List.mem_cons.mp hy with heq | hm
          · exact absurd (by simp [heq]) hyb
          · exact hm
        refine ih hxr hyr ?_
        simp only [List.indexOf]
        omega

theorem lookupD_append_of_some {env : List CDef} {n : DName}
    {r : List CDef × CDef} (h : lookupD env n = some r) (ext : List CDef) :
    lookupD (env ++ ext) n = some r := by
  induction env generalizing r with
  | nil => simp [lookupD] at h
  | cons d rest ih =>
    rw [List.cons_append]
    rw [lookupD] at h ⊢
    by_cases hd : defName d = n
    · simp only [hd, if_true] at h ⊢
      exact h
    · simp only [hd, if_false] at h ⊢
      cases h2 : lookupD rest n with
      | none => rw [h2] at h; exact absurd h (by simp)
      | some r2 =>
        rw [h2] at h
        rw [ih h2]
        exact h

theorem lookupD_eq_none {env : List CDef} {n : DName}
    (h : n ∉ env.map defName) : lookupD env n = none := by
  induction env with
  | nil => rfl
  | cons d rest ih =>
    simp only [List.map_cons, List.mem_cons] at h
    push_neg at h
    rw [lookupD, if_neg (fun hc => h.1 hc.symm), ih h.2]

theorem lookupD_append_fresh {env : List CDef} {d : CDef}
    (h : defName d ∉ env.map defName) :
    lookupD (env ++ [d]) (defName d) = some (env, d) := by
  induction env with
  | nil => simp [lookupD]
  | cons e rest ih =>
    simp only [List.map_cons, List.mem_cons] at h
    push_neg at h
    rw [List.cons_append, lookupD, if_neg (fun hc => h.1 hc.symm), ih h.2]

theorem lookupD_some_mem {env : List CDef} {n : DName}
    {r : List CDef × CDef} (h : lookupD env n = some r) :
    n ∈ env.map defName := by
  induction env generalizing r with
  | nil => simp [lookupD] at h
  | cons d rest ih =>
    rw [lookupD] at h
    by_cases hd : defName d = n
    · simp [hd]
    · simp only [hd, if_false] at h
      cases h2 : lookupD rest n with
      | none => rw [h2] at h; exact absurd h (by simp)
      | some r2 => simp [ih h2]

/-! ## Lemmas: interpretation is monotone in fuel and stable under
appending definitions -/

theorem denote_fuel_step : ∀ f : Nat,
    (∀ env e v, denoteE f env e = some v → denoteE (f + 1) env e = some v) ∧
    (∀ env e s, denoteK f env e = some s → denoteK (f + 1) env e = some s) ∧
    (∀ env e p, denoteEntry f env e = some p → denoteEntry (f + 1) env e = some p) ∧
    (∀ env es ps, denoteEntries f env es = some ps →
      denoteEntries (f + 1) env es = some ps) ∧
    (∀ env es vs, denoteList f env es = some vs →
      denoteList (f + 1) env es = some vs) := by
  intro f
  induction f with
  | zero =>
    refine ⟨?_, ?_, ?_, ?_, ?_⟩ <;> (intro env e v h; simp [denoteE, denoteK,
      denoteEntry, denoteEntries, denoteList] at h)
  | succ f ih =>
    obtain ⟨ihE, ihK, ihEnt, ihEnts, ihL⟩ := ih
    refine ⟨?_, ?_, ?_, ?_, ?_⟩
    · intro env e v h
      cases e with
      | nullL => rw [denoteE] at h ⊢; exact h
      | boolL b => rw [denoteE] at h ⊢; exact h
      | intL i => rw [denoteE] at h ⊢; exact h
      | uintL u => rw [denoteE] at h ⊢; exact h
      | floatL t => rw [denoteE] at h ⊢; exact h
      | strL s => rw [denoteE] at h ⊢; exact h
      | ref n =>
        rw [denoteE] at h ⊢
        split at h
        · rename_i pre k content heq
          exact h
        · rename_i pre nm body heq
          exact ihE pre body v h
        · simp at h
      | objectOf n =>
        rw [denoteE] at h ⊢
        split at h
        · rename_i pre m entries heq
          cases hd : denoteEntries f pre entries with
          | none => rw [hd] at h; simp at h
          | some ps =>
            rw [hd] at h
            rw [ihEnts pre entries ps hd]
            exact h
        · simp at h
      | arrayOf n =>
        rw [denoteE] at h ⊢
        split at h
        · rename_i pre m es heq
          cases hd : denoteList f pre es with
          | none => rw [hd] at h; simp at h
          | some vs =>
            rw [hd] at h
            rw [ihL pre es vs hd]
            exact h
        · simp at h
    · intro env e s h
      cases e with
      | strL t => rw [denoteK] at h ⊢; exact h
      | ref n => rw [denoteK] at h ⊢; exact h
      | nullL => simp [denoteK] at h
      | boolL b => simp [denoteK] at h
      | intL i => simp [denoteK] at h
      | uintL u => simp [denoteK] at h
      | floatL t => simp [denoteK] at h
      | objectOf n => simp [denoteK] at h
      | arrayOf n => simp [denoteK] at h
    · intro env e p h
      cases e with
      | pinl key val =>
        rw [denoteEntry] at h ⊢
        split at h
        · rename_i kk vv hk hv
          rw [ihK env key kk hk, ihE env val vv hv]
          exact h
        · simp at h
      | pref pk =>
        rw [denoteEntry] at h ⊢
        split at h
        · rename_i pre k key val heq
          split at h
          · rename_i kk vv hk hv
            rw [ihK pre key kk hk, ihE pre val vv hv]
            exact h
          · simp at h
        · simp at h
    · intro env es ps h
      cases es with
      | nil => rw [denoteEntries] at h ⊢; exact h
      | cons e rest =>
        rw [denoteEntries] at h ⊢
        split at h
        · rename_i p pr2 he hr
          rw [ihEnt env e p he, ihEnts env rest pr2 hr]
          exact h
        · simp at h
    · intro env es vs h
      cases es with
      | nil => rw [denoteList] at h ⊢; exact h
      | cons e rest =>
        rw [denoteList] at h ⊢
        split at h
        · rename_i v vr he hr
          rw [ihE env e v he, ihL env rest vr hr]
          exact h
        · simp at h

theorem denote_append : ∀ f : Nat,
    (∀ env ext e v, denoteE f env e = some v → denoteE f (env ++ ext) e = some v) ∧
    (∀ env ext e s, denoteK f env e = some s → denoteK f (env ++ ext) e = some s) ∧
    (∀ env ext e p, denoteEntry f env e = some p →
      denoteEntry f (env ++ ext) e = some p) ∧
    (∀ env ext es ps, denoteEntries f env es = some ps →
      denoteEntries f (env ++ ext) es = some ps) ∧
    (∀ env ext es vs, denoteList f env es = some vs →
      denoteList f (env ++ ext) es = some vs) := by
  intro f
  induction f with
  | zero =>
    refine ⟨?_, ?_, ?_, ?_, ?_⟩ <;> (intro env ext e v h; simp [denoteE, denoteK,
      denoteEntry, denoteEntries, denoteList] at h)
  | succ f ih =>
    obtain ⟨ihE, ihK, ihEnt, ihEnts, ihL⟩ := ih
    refine ⟨?_, ?_, ?_, ?_, ?_⟩
    · intro env ext e v h
      cases e with
      | nullL => rw [denoteE] at h ⊢; exact h
      | boolL b => rw [denoteE] at h ⊢; exact h
      | intL i => rw [denoteE] at h ⊢; exact h
      | uintL u => rw [denoteE] at h ⊢; exact h
      | floatL t => rw [denoteE] at h ⊢; exact h
      | strL s => rw [denoteE] at h ⊢; exact h
      | ref n =>
        rw [denoteE] at h ⊢
        split at h
        · rename_i pre k content heq
          rw [lookupD_append_of_some heq ext]
          exact h
        · rename_i pre nm body heq
          rw [lookupD_append_of_some heq ext]
          exact h
        · simp at h
      | objectOf n =>
        rw [denoteE] at h ⊢
        split at h
        · rename_i pre m entries heq
          rw [lookupD_append_of_some heq ext]
          exact h
        · simp at h
      | arrayOf n =>
        rw [denoteE] at h ⊢
        split at h
        · rename_i pre m es heq
          rw [lookupD_append_of_some heq ext]
          exact h
        · simp at h
    · intro env ext e s h
      cases e with
      | strL t => rw [denoteK] at h ⊢; exact h
      | ref n =>
        rw [denoteK] at h ⊢
        split at h
        · rename_i pre k content heq
          rw [lookupD_append_of_some heq ext]
          exact h
        · simp at h
      | nullL => simp [denoteK] at h
      | boolL b => simp [denoteK] at h
      | intL i => simp [denoteK] at h
      | uintL u => simp [denoteK] at h
      | floatL t => simp [denoteK] at h
      | objectOf n => simp [denoteK] at h
      | arrayOf n => simp [denoteK] at h
    · intro env ext e p h
      cases e with
      | pinl key val =>
        rw [denoteEntry] at h ⊢
        split at h
        · rename_i kk vv hk hv
          rw [ihK env ext key kk hk, ihE env ext val vv hv]
          exact h
        · simp at h
      | pref pk =>
        rw [denoteEntry] at h ⊢
        split at h
        · rename_i pre k key val heq
          rw [lookupD_append_of_some heq ext]
          exact h
        · simp at h
    · intro env ext es ps h
      cases es with
      | nil => rw [denoteEntries] at h ⊢; exact h
      | cons e rest =>
        rw [denoteEntries] at h ⊢
        split at h
        · rename_i p pr2 he hr
          rw [ihEnt env ext e p he, ihEnts env ext rest pr2 hr]
          exact h
        · simp at h
    · intro env ext es vs h
      cases es with
      | nil => rw [denoteList] at h ⊢; exact h
      | cons e rest =>
        rw [denoteList] at h ⊢
        split at h
        · rename_i v vr he hr
          rw [ihE env ext e v he, ihL env ext rest vr hr]
          exact h
        · simp at h

theorem denoteE_mono {f g : Nat} {env : List CDef} {e : CExpr} {v : JValue}
    (hfg : f ≤ g) (h : denoteE f env e = some v) : denoteE g env e = some v := by
  induction g with
  | zero => cases Nat.le_zero.mp hfg; exact h
  | succ g ih =>
    rcases Nat.lt_or_ge f (g + 1) with hlt | hge
    · exact (denote_fuel_step g).1 env e v (ih (by omega))
    · have : f = g + 1 := by omega
      subst this; exact h

theorem denoteK_mono {f g : Nat} {env : List CDef} {e : CExpr} {s : String}
    (hfg : f ≤ g) (h : denoteK f env e = some s) : denoteK g env e = some s := by
  induction g with
  | zero => cases Nat.le_zero.mp hfg; exact h
  | succ g ih =>
    rcases Nat.lt_or_ge f (g + 1) with hlt | hge
    · exact (denote_fuel_step g).2.1 env e s (ih (by omega))
    · have : f = g + 1 := by omega
      subst this; exact h

theorem denoteEntry_mono {f g : Nat} {env : List CDef} {e : Entry}
    {p : String × JValue} (hfg : f ≤ g) (h : denoteEntry f env e = some p) :
    denoteEntry g env e = some p := by
  induction g with
  | zero => cases Nat.le_zero.mp hfg; exact h
  | succ g ih =>
    rcases Nat.lt_or_ge f (g + 1) with hlt | hge
    · exact (denote_fuel_step g).2.2.1 env e p (ih (by omega))
    · have : f = g + 1 := by omega
      subst this; exact h

theorem denoteEntries_mono {f g : Nat} {env : List CDef} {es : List Entry}
    {ps : List (String × JValue)} (hfg : f ≤ g)
    (h : denoteEntries f env es = some ps) : denoteEntries g env es = some ps := by
  induction g with
  | zero => cases Nat.le_zero.mp hfg; exact h
  | succ g ih =>
    rcases Nat.lt_or_ge f (g + 1) with hlt | hge
    · exact (denote_fuel_step g).2.2.2.1 env es ps (ih (by omega))
    · have : f = g + 1 := by omega
      subst this; exact h

theorem denoteList_mono {f g : Nat} {env : List CDef} {es : List CExpr}
    {vs : List JValue} (hfg : f ≤ g) (h : denoteList f env es = some vs) :
    denoteList g env es = some vs := by
  induction g with
  | zero => cases Nat.le_zero.mp hfg; exact h
  | succ g ih =>
    rcases Nat.lt_or_ge f (g + 1) with hlt | hge
    · exact (denote_fuel_step g).2.2.2.2 env es vs (ih (by omega))
    · have : f = g + 1 := by omega
      subst this; exact h

/-! ## Lemmas: sizes, closure monotonicity, invariant maintenance -/

theorem sizeOf_snd_lt_pairs {k : String} {v : JValue}
    {prs : List (String × JValue)} (h : (k, v) ∈ prs) :
    sizeOf v < sizeOf (JValue.objJ prs) := by
  induction prs with
  | nil => simp at h
  | cons p rest ih =>
    obtain ⟨k2, v2⟩ := p
    rcases List.mem_cons.mp h with heq | hm
    · obtain ⟨h1, h2⟩ := Prod.mk.injEq .. ▸ heq
      subst h2
      simp only [JValue.objJ.sizeOf_spec, List.cons.sizeOf_spec, Prod.mk.sizeOf_spec]
      omega
    · have := ih hm
      simp only [JValue.objJ.sizeOf_spec, List.cons.sizeOf_spec,
        Prod.mk.sizeOf_spec] at *
      omega

theorem sizeOf_mem_lt_els {v : JValue} {els : List JValue} (h : v ∈ els) :
    sizeOf v < sizeOf (JValue.arrJ els) := by
  induction els with
  | nil => simp at h
  | cons e rest ih =>
    rcases List.mem_cons.mp h with heq | hm
    · subst heq
      simp only [JValue.arrJ.sizeOf_spec, List.cons.sizeOf_spec]
      omega
    · have := ih hm
      simp only [JValue.arrJ.sizeOf_spec, List.cons.sizeOf_spec] at *
      omega

theorem closedO_mono {c : Ctx} {st st' : EState} {o : Occs}
    (h : ClosedO c st o)
    (ho : ∀ x ∈ st.pObj, x ∈ st'.pObj)
    (ha : ∀ x ∈ st.pArr, x ∈ st'.pArr)
    (hp : ∀ x ∈ st.pPair, x ∈ st'.pPair) : ClosedO c st' o :=
  ⟨fun s hs hc => ho s (h.1 s hs hc),
   fun s hs hc => ha s (h.2.1 s hs hc),
   fun p hp2 hc => hp p (h.2.2 p hp2 hc)⟩

theorem einv_bumpCount {c : Ctx} {pend : Pend} {st : EState}
    (h : EInv c pend st) :
    EInv c pend { st with objCount := st.objCount + 1 } :=
  { nodupN := h.nodupN
    dataLt := fun d hd n hn => Nat.lt_succ_of_lt (h.dataLt d hd n hn)
    strLook := h.strLook
    strName := h.strName
    pObjSub := h.pObjSub
    pArrSub := h.pArrSub
    pPairSub := h.pPairSub
    objName := h.objName
    arrName := h.arrName
    pairName := h.pairName
    objDen := h.objDen
    arrDen := h.arrDen
    pairDen := h.pairDen
    objClos := h.objClos
    arrClos := h.arrClos
    pairClos := h.pairClos
    closedRefs := h.closedRefs }

theorem markObj {c : Ctx} {pend : Pend} {st : EState} {v : JValue}
    (h : EInv c pend st) (hv : v ∉ st.pObj) (hvc : v ∈ c.sObjs) :
    EInv c ⟨v :: pend.objs, pend.arrs, pend.prsP⟩
      { st with pObj := v :: st.pObj } := by
  have hmono : ∀ x ∈ st.pObj, x ∈ v :: st.pObj :=
    fun x hx => List.mem_cons_of_mem _ hx
  refine
  { nodupN := h.nodupN
    dataLt := h.dataLt
    strLook := h.strLook
    strName := h.strName
    pObjSub := ?_
    pArrSub := h.pArrSub
    pPairSub := h.pPairSub
    objName := ?_
    arrName := h.arrName
    pairName := h.pairName
    objDen := ?_
    arrDen := h.arrDen
    pairDen := h.pairDen
    objClos := ?_
    arrClos := ?_
    pairClos := ?_
    closedRefs := h.closedRefs }
  · intro w hw
    rcases List.mem_cons.mp hw with heq | hm
    · exact heq ▸ hvc
    · exact h.pObjSub w hm
  · intro d hd k hk
    obtain ⟨w, hw1, hw2, hw3⟩ := h.objName d hd k hk
    exact ⟨w, hmono w hw1, fun hc => hw2 (by
      rcases List.mem_cons.mp hc with heq | hm
      · exact absurd (heq ▸ hw1) hv
      · exact hm), hw3⟩
  · intro w hw hwp
    have hw2 : w ∈ st.pObj := by
      rcases List.mem_cons.mp hw with heq | hm
      · exact absurd (List.mem_cons_self v pend.objs) (heq ▸ hwp)
      · exact hm
    exact h.objDen w hw2 (fun hc => hwp (List.mem_cons_of_mem _ hc))
  · intro w hw hwp
    have hw2 : w ∈ st.pObj := by
      rcases List.mem_cons.mp hw with heq | hm
      · exact absurd (List.mem_cons_self v pend.objs) (heq ▸ hwp)
      · exact hm
    exact closedO_mono
      (h.objClos w hw2 (fun hc => hwp (List.mem_cons_of_mem _ hc)))
      hmono (fun x hx => hx) (fun x hx => hx)
  · intro w hw hwp
    exact closedO_mono (h.arrClos w hw hwp) hmono (fun x hx => hx) (fun x hx => hx)
  · intro kv hkv hkvp
    exact closedO_mono (h.pairClos kv hkv hkvp) hmono (fun x hx => hx)
      (fun x hx => hx)

theorem markArr {c : Ctx} {pend : Pend} {st : EState} {v : JValue}
    (h : EInv c pend st) (hv : v ∉ st.pArr) (hvc : v ∈ c.sArrs) :
    EInv c ⟨pend.objs, v :: pend.arrs, pend.prsP⟩
      { st with pArr := v :: st.pArr } := by
  have hmono : ∀ x ∈ st.pArr, x ∈ v :: st.pArr :=
    fun x hx => List.mem_cons_of_mem _ hx
  refine
  { nodupN := h.nodupN
    dataLt := h.dataLt
    strLook := h.strLook
    strName := h.strName
    pObjSub := h.pObjSub
    pArrSub := ?_
    pPairSub := h.pPairSub
    objName := h.objName
    arrName := ?_
    pairName := h.pairName
    objDen := h.objDen
    arrDen := ?_
    pairDen := h.pairDen
    objClos := ?_
    arrClos := ?_
    pairClos := ?_
    closedRefs := h.closedRefs }
  · intro w hw
    rcases List.mem_cons.mp hw with heq | hm
    · exact heq ▸ hvc
    · exact h.pArrSub w hm
  · intro d hd k hk
    obtain ⟨w, hw1, hw2, hw3⟩ := h.arrName d hd k hk
    exact ⟨w, hmono w hw1, fun hc => hw2 (by
      rcases List.mem_cons.mp hc with heq | hm
      · exact absurd (heq ▸ hw1) hv
      · exact hm), hw3⟩
  · intro w hw hwp
    have hw2 : w ∈ st.pArr := by
      rcases List.mem_cons.mp hw with heq | hm
      · exact absurd (List.mem_cons_self v pend.arrs) (heq ▸ hwp)
      · exact hm
    exact h.arrDen w hw2 (fun hc => hwp (List.mem_cons_of_mem _ hc))
  · intro w hw hwp
    exact closedO_mono (h.objClos w hw hwp) (fun x hx => hx) hmono (fun x hx => hx)
  · intro w hw hwp
    have hw2 : w ∈ st.pArr := by
      rcases List.mem_cons.mp hw with heq | hm
      · exact absurd (List.mem_cons_self v pend.arrs) (heq ▸ hwp)
      · exact hm
    exact closedO_mono
      (h.arrClos w hw2 (fun hc => hwp (List.mem_cons_of_mem _ hc)))
      (fun x hx => hx) hmono (fun x hx => hx)
  · intro kv hkv hkvp
    exact closedO_mono (h.pairClos kv hkv hkvp) (fun x hx => hx) hmono
      (fun x hx => hx)

theorem markPair {c : Ctx} {pend : Pend} {st : EState} {kv : String × JValue}
    (h : EInv c pend st) (hv : kv ∉ st.pPair) (hvc : kv ∈ c.sPairs) :
    EInv c ⟨pend.objs, pend.arrs, kv :: pend.prsP⟩
      { st with pPair := kv :: st.pPair } := by
  have hmono : ∀ x ∈ st.pPair, x ∈ kv :: st.pPair :=
    fun x hx => List.mem_cons_of_mem _ hx
  refine
  { nodupN := h.nodupN
    dataLt := h.dataLt
    strLook := h.strLook
    strName := h.strName
    pObjSub := h.pObjSub
    pArrSub := h.pArrSub
    pPairSub := ?_
    objName := h.objName
    arrName := h.arrName
    pairName := ?_
    objDen := h.objDen
    arrDen := h.arrDen
    pairDen := ?_
    objClos := ?_
    arrClos := ?_
    pairClos := ?_
    closedRefs := h.closedRefs }
  · intro w hw
    rcases List.mem_cons.mp hw with heq | hm
    · exact heq ▸ hvc
    · exact h.pPairSub w hm
  · intro d hd k hk
    obtain ⟨w, hw1, hw2, hw3⟩ := h.pairName d hd k hk
    exact ⟨w, hmono w hw1, fun hc => hw2 (by
      rcases List.mem_cons.mp hc with heq | hm
      · exact absurd (heq ▸ hw1) hv
      · exact hm), hw3⟩
  · intro w hw hwp
    have hw2 : w ∈ st.pPair := by
      rcases List.mem_cons.mp hw with heq | hm
      · exact absurd (List.mem_cons_self kv pend.prsP) (heq ▸ hwp)
      · exact hm
    exact h.pairDen w hw2 (fun hc => hwp (List.mem_cons_of_mem _ hc))
  · intro w hw hwp
    exact closedO_mono (h.objClos w hw hwp) (fun x hx => hx) (fun x hx => hx) hmono
  · intro w hw hwp
    exact closedO_mono (h.arrClos w hw hwp) (fun x hx => hx) (fun x hx => hx) hmono
  · intro w hw hwp
    have hw2 : w ∈ st.pPair := by
      rcases List.mem_cons.mp hw with heq | hm
      · exact absurd (List.mem_cons_self kv pend.prsP) (heq ▸ hwp)
      · exact hm
    exact closedO_mono
      (h.pairClos w hw2 (fun hc => hwp (List.mem_cons_of_mem _ hc)))
      (fun x hx => hx) (fun x hx => hx) hmono

theorem defsClosed_append {env : List CDef} {d : CDef} (h : DefsClosed env)
    (hrefs : ∀ n ∈ refsD d, n ∈ env.map defName) : DefsClosed (env ++ [d]) := by
  intro i hi n hn
  rcases Nat.lt_or_ge i env.length with hlt | hge
  · have hget : (env ++ [d]).get ⟨i, hi⟩ = env.get ⟨i, hlt⟩ := by
      simp [List.get_eq_getElem, List.getElem_append_left hlt]
    rw [hget] at hn
    have := h i hlt n hn
    rw [List.take_append_of_le_length (le_of_lt hlt)]
    exact this
  · have hieq : i = env.length := by
      simp only [List.length_append, List.length_cons, List.length_nil] at hi
      omega
    subst hieq
    have hget : (env ++ [d]).get ⟨env.length, hi⟩ = d := by
      simp [List.get_eq_getElem, List.getElem_append_right (le_refl env.length)]
    rw [hget] at hn
    rw [List.take_left]
    exact hrefs n hn

theorem nodup_names_append {env : List CDef} {d : CDef}
    (h : (env.map defName).Nodup) (hfresh : defName d ∉ env.map defName) :
    ((env ++ [d]).map defName).Nodup := by
  rw [List.map_append]
  rw [List.nodup_append]
  refine ⟨h, List.nodup_singleton _, ?_⟩
  intro a ha hb
  simp only [List.map_cons, List.map_nil, List.mem_singleton] at hb
  exact hfresh (hb ▸ ha)

theorem einv_append_dataD {c : Ctx} {pend : Pend} {st : EState} {n : Nat}
    {pl : Payload} (h : EInv c pend st)
    (hfresh : DName.dataN n ∉ st.lines.map defName) (hlt : n < st.objCount)
    (hrefs : ∀ m ∈ refsD (.dataD n pl), m ∈ st.lines.map defName) :
    EInv c pend { st with lines := st.lines ++ [.dataD n pl] } := by
  refine
  { nodupN := nodup_names_append h.nodupN hfresh
    dataLt := ?_
    strLook := ?_
    strName := ?_
    pObjSub := h.pObjSub
    pArrSub := h.pArrSub
    pPairSub := h.pPairSub
    objName := ?_
    arrName := ?_
    pairName := ?_
    objDen := ?_
    arrDen := ?_
    pairDen := ?_
    objClos := h.objClos
    arrClos := h.arrClos
    pairClos := h.pairClos
    closedRefs := defsClosed_append h.closedRefs hrefs }
  · intro d hd m hm
    rcases List.mem_append.mp hd with hold | hnew
    · exact h.dataLt d hold m hm
    · rw [List.mem_singleton.mp hnew] at hm
      simp only [defName, DName.dataN.injEq] at hm
      exact hm ▸ hlt
  · intro s hs
    obtain ⟨pre, hp⟩ := h.strLook s hs
    exact ⟨pre, lookupD_append_of_some hp _⟩
  · intro d hd k content hdc
    rcases List.mem_append.mp hd with hold | hnew
    · exact h.strName d hold k content hdc
    · rw [List.mem_singleton.mp hnew] at hdc
      simp at hdc
  · intro d hd k hk
    rcases List.mem_append.mp hd with hold | hnew
    · exact h.objName d hold k hk
    · rw [List.mem_singleton.mp hnew] at hk
      simp [defName] at hk
  · intro d hd k hk
    rcases List.mem_append.mp hd with hold | hnew
    · exact h.arrName d hold k hk
    · rw [List.mem_singleton.mp hnew] at hk
      simp [defName] at hk
  · intro d hd k hk
    rcases List.mem_append.mp hd with hold | hnew
    · exact h.pairName d hold k hk
    · rw [List.mem_singleton.mp hnew] at hk
      simp [defName] at hk
  · intro w hw hwp
    obtain ⟨pre, body, f, hl, hdn⟩ := h.objDen w hw hwp
    exact ⟨pre, body, f, lookupD_append_of_some hl _, hdn⟩
  · intro w hw hwp
    obtain ⟨pre, body, f, hl, hdn⟩ := h.arrDen w hw hwp
    exact ⟨pre, body, f, lookupD_append_of_some hl _, hdn⟩
  · intro kv hkv hkvp
    obtain ⟨pre, key, val, f, hl, hk, hv⟩ := h.pairDen kv hkv hkvp
    exact ⟨pre, key, val, f, lookupD_append_of_some hl _, hk, hv⟩

theorem unpendObj {c : Ctx} {pend : Pend} {st : EState} {v : JValue}
    {body : CExpr} {f : Nat}
    (h : EInv c ⟨v :: pend.objs, pend.arrs, pend.prsP⟩ st)
    (hvp : v ∈ st.pObj) (hvnp : v ∉ pend.objs) (hvc : v ∈ c.sObjs)
    (hbody : denoteE f st.lines body = some v)
    (hrefs : ∀ m ∈ refsE body, m ∈ st.lines.map defName)
    (hclos : ClosedO c st (occsOf v)) :
    EInv c pend
      { st with lines :=
          st.lines ++ [.sharedD (.obj (c.sObjs.indexOf v)) body] } := by
  have hfresh : DName.obj (c.sObjs.indexOf v) ∉ st.lines.map defName := by
    intro hmem
    obtain ⟨d, hd, hdn⟩ := List.mem_map.mp hmem
    obtain ⟨w, hw1, hw2, hw3⟩ := h.objName d hd _ hdn
    have hwc : w ∈ c.sObjs := h.pObjSub w hw1
    have hweq : w = v := indexOf_inj2 hwc hvc hw3.symm
    exact hw2 (by rw [hweq]; exact List.mem_cons_self v pend.objs)
  refine
  { nodupN := nodup_names_append h.nodupN hfresh
    dataLt := ?_
    strLook := ?_
    strName := ?_
    pObjSub := h.pObjSub
    pArrSub := h.pArrSub
    pPairSub := h.pPairSub
    objName := ?_
    arrName := ?_
    pairName := ?_
    objDen := ?_
    arrDen := ?_
    pairDen := ?_
    objClos := ?_
    arrClos := ?_
    pairClos := ?_
    closedRefs := defsClosed_append h.closedRefs hrefs }
  · intro d hd m hm
    rcases List.mem_append.mp hd with hold | hnew
    · exact h.dataLt d hold m hm
    · rw [List.mem_singleton.mp hnew] at hm
      simp [defName] at hm
  · intro s hs
    obtain ⟨pre, hp⟩ := h.strLook s hs
    exact ⟨pre, lookupD_append_of_some hp _⟩
  · intro d hd k content hdc
    rcases List.mem_append.mp hd with hold | hnew
    · exact h.strName d hold k content hdc
    · rw [List.mem_singleton.mp hnew] at hdc
      simp at hdc
  · intro d hd k hk
    rcases List.mem_append.mp hd with hold | hnew
    · obtain ⟨w, hw1, hw2, hw3⟩ := h.objName d hold k hk
      exact ⟨w, hw1, fun hc => hw2 (List.mem_cons_of_mem _ hc), hw3⟩
    · rw [List.mem_singleton.mp hnew] at hk
      simp only [defName, DName.obj.injEq] at hk
      exact ⟨v, hvp, hvnp, hk.symm⟩
  · intro d hd k hk
    rcases List.mem_append.mp hd with hold | hnew
    · exact h.arrName d hold k hk
    · rw [List.mem_singleton.mp hnew] at hk
      simp [defName] at hk
  · intro d hd k hk
    rcases List.mem_append.mp hd with hold | hnew
    · exact h.pairName d hold k hk
    · rw [List.mem_singleton.mp hnew] at hk
      simp [defName] at hk
  · intro w hw hwp
    by_cases hweq : w = v
    · subst hweq
      refine ⟨st.lines, body, f, ?_, hbody⟩
      have := @lookupD_append_fresh st.lines
        (.sharedD (.obj (c.sObjs.indexOf w)) body) hfresh
      exact this
    · obtain ⟨pre, body2, f2, hl, hdn⟩ := h.objDen w hw (by
        intro hc
        rcases List.mem_cons.mp hc with heq | hm
        · exact hweq heq
        · exact hwp hm)
      exact ⟨pre, body2, f2, lookupD_append_of_some hl _, hdn⟩
  · intro w hw hwp
    obtain ⟨pre, body2, f2, hl, hdn⟩ := h.arrDen w hw hwp
    exact ⟨pre, body2, f2, lookupD_append_of_some hl _, hdn⟩
  · intro kv hkv hkvp
    obtain ⟨pre, key, val, f2, hl, hk, hv2⟩ := h.pairDen kv hkv hkvp
    exact ⟨pre, key, val, f2, lookupD_append_of_some hl _, hk, hv2⟩
  · intro w hw hwp
    by_cases hweq : w = v
    · exact hweq ▸ hclos
    · exact h.objClos w hw (by
        intro hc
        rcases List.mem_cons.mp hc with heq | hm
        · exact hweq heq
        · exact hwp hm)
  · intro w hw hwp
    exact h.arrClos w hw hwp
  · intro kv hkv hkvp
    exact h.pairClos kv hkv hkvp

theorem unpendArr {c : Ctx} {pend : Pend} {st : EState} {v : JValue}
    {body : CExpr} {f : Nat}
    (h : EInv c ⟨pend.objs, v :: pend.arrs, pend.prsP⟩ st)
    (hvp : v ∈ st.pArr) (hvnp : v ∉ pend.arrs) (hvc : v ∈ c.sArrs)
    (hbody : denoteE f st.lines body = some v)
    (hrefs : ∀ m ∈ refsE body, m ∈ st.lines.map defName)
    (hclos : ClosedO c st (occsOf v)) :
    EInv c pend
      { st with lines :=
          st.lines ++ [.sharedD (.arr (c.sArrs.indexOf v)) body] } := by
  have hfresh : DName.arr (c.sArrs.indexOf v) ∉ st.lines.map defName := by
    intro hmem
    obtain ⟨d, hd, hdn⟩ := List.mem_map.mp hmem
    obtain ⟨w, hw1, hw2, hw3⟩ := h.arrName d hd _ hdn
    have hwc : w ∈ c.sArrs := h.pArrSub w hw1
    have hweq : w = v := indexOf_inj2 hwc hvc hw3.symm
    exact hw2 (by rw [hweq]; exact List.mem_cons_self v pend.arrs)
  refine
  { nodupN := nodup_names_append h.nodupN hfresh
    dataLt := ?_
    strLook := ?_
    strName := ?_
    pObjSub := h.pObjSub
    pArrSub := h.pArrSub
    pPairSub := h.pPairSub
    objName := ?_
    arrName := ?_
    pairName := ?_
    objDen := ?_
    arrDen := ?_
    pairDen := ?_
    objClos := ?_
    arrClos := ?_
    pairClos := ?_
    closedRefs := defsClosed_append h.closedRefs hrefs }
  · intro d hd m hm
    rcases List.mem_append.mp hd with hold | hnew
    · exact h.dataLt d hold m hm
    · rw [List.mem_singleton.mp hnew] at hm
      simp [defName] at hm
  · intro s hs
    obtain ⟨pre, hp⟩ := h.strLook s hs
    exact ⟨pre, lookupD_append_of_some hp _⟩
  · intro d hd k content hdc
    rcases List.mem_append.mp hd with hold | hnew
    · exact h.strName d hold k content hdc
    · rw [List.mem_singleton.mp hnew] at hdc
      simp at hdc
  · intro d hd k hk
    rcases List.mem_append.mp hd with hold | hnew
    · exact h.objName d hold k hk
    · rw [List.mem_singleton.mp hnew] at hk
      simp [defName] at hk
  · intro d hd k hk
    rcases List.mem_append.mp hd with hold | hnew
    · obtain ⟨w, hw1, hw2, hw3⟩ := h.arrName d hold k hk
      exact ⟨w, hw1, fun hc => hw2 (List.mem_cons_of_mem _ hc), hw3⟩
    · rw [List.mem_singleton.mp hnew] at hk
      simp only [defName, DName.arr.injEq] at hk
      exact ⟨v, hvp, hvnp, hk.symm⟩
  · intro d hd k hk
    rcases List.mem_append.mp hd with hold | hnew
    · exact h.pairName d hold k hk
    · rw [List.mem_singleton.mp hnew] at hk
      simp [defName] at hk
  · intro w hw hwp
    obtain ⟨pre, body2, f2, hl, hdn⟩ := h.objDen w hw hwp
    exact ⟨pre, body2, f2, lookupD_append_of_some hl _, hdn⟩
  · intro w hw hwp
    by_cases hweq : w = v
    · subst hweq
      refine ⟨st.lines, body, f, ?_, hbody⟩
      have := @lookupD_append_fresh st.lines
        (.sharedD (.arr (c.sArrs.indexOf w)) body) hfresh
      exact this
    · obtain ⟨pre, body2, f2, hl, hdn⟩ := h.arrDen w hw (by
        intro hc
        rcases List.mem_cons.mp hc with heq | hm
        · exact hweq heq
        · exact hwp hm)
      exact ⟨pre, body2, f2, lookupD_append_of_some hl _, hdn⟩
  · intro kv hkv hkvp
    obtain ⟨pre, key, val, f2, hl, hk, hv2⟩ := h.pairDen kv hkv hkvp
    exact ⟨pre, key, val, f2, lookupD_append_of_some hl _, hk, hv2⟩
  · intro w hw hwp
    exact h.objClos w hw hwp
  · intro w hw hwp
    by_cases hweq : w = v
    · exact hweq ▸ hclos
    · exact h.arrClos w hw (by
        intro hc
        rcases List.mem_cons.mp hc with heq | hm
        · exact hweq heq
        · exact hwp hm)
  · intro kv hkv hkvp
    exact h.pairClos kv hkv hkvp

theorem unpendPair {c : Ctx} {pend : Pend} {st : EState} {kv : String × JValue}
    {key val : CExpr} {f : Nat}
    (h : EInv c ⟨pend.objs, pend.arrs, kv :: pend.prsP⟩ st)
    (hvp : kv ∈ st.pPair) (hvnp : kv ∉ pend.prsP) (hvc : kv ∈ c.sPairs)
    (hkey : denoteK f st.lines key = some kv.1)
    (hval : denoteE f st.lines val = some kv.2)
    (hrefs : ∀ m ∈ refsE key ++ refsE val, m ∈ st.lines.map defName)
    (hclos : ClosedO c st (occsOf kv.2)) :
    EInv c pend
      { st with lines :=
          st.lines ++ [.pairD (c.sPairs.indexOf kv) key val] } := by
  have hfresh : DName.pr (c.sPairs.indexOf kv) ∉ st.lines.map defName := by
    intro hmem
    obtain ⟨d, hd, hdn⟩ := List.mem_map.mp hmem
    obtain ⟨w, hw1, hw2, hw3⟩ := h.pairName d hd _ hdn
    have hwc : w ∈ c.sPairs := h.pPairSub w hw1
    have hweq : w = kv := indexOf_inj2 hwc hvc hw3.symm
    exact hw2 (by rw [hweq]; exact List.mem_cons_self kv pend.prsP)
  refine
  { nodupN := nodup_names_append h.nodupN hfresh
    dataLt := ?_
    strLook := ?_
    strName := ?_
    pObjSub := h.pObjSub
    pArrSub := h.pArrSub
    pPairSub := h.pPairSub
    objName := ?_
    arrName := ?_
    pairName := ?_
    objDen := ?_
    arrDen := ?_
    pairDen := ?_
    objClos := ?_
    arrClos := ?_
    pairClos := ?_
    closedRefs := defsClosed_append h.closedRefs hrefs }
  · intro d hd m hm
    rcases List.mem_append.mp hd with hold | hnew
    · exact h.dataLt d hold m hm
    · rw [List.mem_singleton.mp hnew] at hm
      simp [defName] at hm
  · intro s hs
    obtain ⟨pre, hp⟩ := h.strLook s hs
    exact ⟨pre, lookupD_append_of_some hp _⟩
  · intro d hd k content hdc
    rcases List.mem_append.mp hd with hold | hnew
    · exact h.strName d hold k content hdc
    · rw [List.mem_singleton.mp hnew] at hdc
      simp at hdc
  · intro d hd k hk
    rcases List.mem_append.mp hd with hold | hnew
    · exact h.objName d hold k hk
    · rw [List.mem_singleton.mp hnew] at hk
      simp [defName] at hk
  · intro d hd k hk
    rcases List.mem_append.mp hd with hold | hnew
    · exact h.arrName d hold k hk
    · rw [List.mem_singleton.mp hnew] at hk
      simp [defName] at hk
  · intro d hd k hk
    rcases List.mem_append.mp hd with hold | hnew
    · obtain ⟨w, hw1, hw2, hw3⟩ := h.pairName d hold k hk
      exact ⟨w, hw1, fun hc => hw2 (List.mem_cons_of_mem _ hc), hw3⟩
    · rw [List.mem_singleton.mp hnew] at hk
      simp only [defName, DName.pr.injEq] at hk
      exact ⟨kv, hvp, hvnp, hk.symm⟩
  · intro w hw hwp
    obtain ⟨pre, body2, f2, hl, hdn⟩ := h.objDen w hw hwp
    exact ⟨pre, body2, f2, lookupD_append_of_some hl _, hdn⟩
  · intro w hw hwp
    obtain ⟨pre, body2, f2, hl, hdn⟩ := h.arrDen w hw hwp
    exact ⟨pre, body2, f2, lookupD_append_of_some hl _, hdn⟩
  · intro w hw hwp
    by_cases hweq : w = kv
    · subst hweq
      refine ⟨st.lines, key, val, f, ?_, hkey, hval⟩
      have := @lookupD_append_fresh st.lines
        (.pairD (c.sPairs.indexOf w) key val) hfresh
      exact this
    · obtain ⟨pre, key2, val2, f2, hl, hk2, hv2⟩ := h.pairDen w hw (by
        intro hc
        rcases List.mem_cons.mp hc with heq | hm
        · exact hweq heq
        · exact hwp hm)
      exact ⟨pre, key2, val2, f2, lookupD_append_of_some hl _, hk2, hv2⟩
  · intro w hw hwp
    exact h.objClos w hw hwp
  · intro w hw hwp
    exact h.arrClos w hw hwp
  · intro w hw hwp
    by_cases hweq : w = kv
    · exact hweq ▸ hclos
    · exact h.pairClos w hw (by
        intro hc
        rcases List.mem_cons.mp hc with heq | hm
        · exact hweq heq
        · exact hwp hm)

/-! ## Lemmas: the initial state and state extension -/

theorem strDefs_shape : ∀ (l : List String) (i : Nat) (d : CDef),
    d ∈ strDefs i l → ∃ k s, d = .strD k s := by
  intro l
  induction l with
  | nil => intro i d hd; simp [strDefs] at hd
  | cons b rest ih =>
    intro i d hd
    rw [strDefs] at hd
    rcases List.mem_cons.mp hd with heq | hm
    · exact ⟨i, b, heq⟩
    · exact ih (i + 1) d hm

theorem strDefs_names_ge : ∀ (l : List String) (i : Nat),
    ∀ n ∈ (strDefs i l).map defName, ∃ k, n = .str k ∧ i ≤ k := by
  intro l
  induction l with
  | nil => intro i n hn; simp [strDefs] at hn
  | cons b rest ih =>
    intro i n hn
    rw [strDefs] at hn
    simp only [List.map_cons, List.mem_cons] at hn
    rcases hn with heq | hm
    · exact ⟨i, heq ▸ rfl, le_refl i⟩
    · obtain ⟨k, hk1, hk2⟩ := ih (i + 1) n hm
      exact ⟨k, hk1, by omega⟩

theorem strDefs_names_nodup : ∀ (l : List String) (i : Nat),
    ((strDefs i l).map defName).Nodup := by
  intro l
  induction l with
  | nil => intro i; simp [strDefs]
  | cons b rest ih =>
    intro i
    rw [strDefs]
    simp only [List.map_cons]
    refine List.Nodup.cons ?_ (ih (i + 1))
    intro hmem
    obtain ⟨k, hk1, hk2⟩ := strDefs_names_ge rest (i + 1) _ hmem
    simp only [defName, DName.str.injEq] at hk1
    omega

theorem lookup_strDefs : ∀ (l : List String) (i : Nat) (s : String), s ∈ l →
    ∃ pre, lookupD (strDefs i l) (.str (i + l.indexOf s)) =
      some (pre, .strD (i + l.indexOf s) s) := by
  intro l
  induction l with
  | nil => intro i s hs; simp at hs
  | cons b rest ih =>
    intro i s hs
    by_cases hsb : s = b
    · subst hsb
      have hidx : List.indexOf s (s :: rest) = 0 := by
        simp [List.indexOf, List.findIdx_cons]
      rw [hidx]
      refine ⟨[], ?_⟩
      rw [strDefs, lookupD]
      simp [defName]
    · have hsr : s ∈ rest := List.mem_of_ne_of_mem hsb hs
      have hbs : (b == s) = false := by
        simp only [beq_eq_false_iff_ne, ne_eq]
        exact fun hc => hsb hc.symm
      have hidx : List.indexOf s (b :: rest) = List.indexOf s rest + 1 := by
        simp [List.indexOf, List.findIdx_cons, hbs]
      rw [hidx]
      obtain ⟨pre, hp⟩ := ih (i + 1) s hsr
      refine ⟨.strD i b :: pre, ?_⟩
      rw [strDefs, lookupD]
      have hne : ¬ defName (.strD i b) = .str (i + (List.indexOf s rest + 1)) := by
        simp only [defName, DName.str.injEq]
        omega
      rw [if_neg hne]
      have harith : i + (List.indexOf s rest + 1) = (i + 1) + List.indexOf s rest := by
        omega
      rw [harith, hp]

theorem strDefs_strName : ∀ (l : List String) (i : Nat), l.Nodup →
    ∀ d ∈ strDefs i l, ∀ k content, d = .strD k content →
      content ∈ l ∧ k = i + l.indexOf content := by
  intro l
  induction l with
  | nil => intro i _ d hd; simp [strDefs] at hd
  | cons b rest ih =>
    intro i hnd d hd k content hdc
    rw [strDefs] at hd
    rcases List.mem_cons.mp hd with heq | hm
    · rw [heq] at hdc
      injection hdc with h1 h2
      subst h2
      have hidx : List.indexOf b (b :: rest) = 0 := by
        simp [List.indexOf, List.findIdx_cons]
      rw [hidx]
      exact ⟨List.mem_cons_self b rest, by omega⟩
    · obtain ⟨hm1, hm2⟩ := ih (i + 1) hnd.of_cons d hm k content hdc
      have hcb : content ≠ b := by
        intro hc
        exact (List.nodup_cons.mp hnd).1 (hc ▸ hm1)
      have hbs : (b == content) = false := by
        simp only [beq_eq_false_iff_ne, ne_eq]
        exact fun hc => hcb hc.symm
      have hidx : List.indexOf content (b :: rest) =
          List.indexOf content rest + 1 := by
        simp [List.indexOf, List.findIdx_cons, hbs]
      refine ⟨List.mem_cons_of_mem b hm1, ?_⟩
      rw [hidx]
      omega

theorem einv_init (c : Ctx) (hnd : c.sStrs.Nodup) :
    EInv c pendNil ⟨0, strDefs 0 c.sStrs, [], [], []⟩ := by
  refine
  { nodupN := strDefs_names_nodup c.sStrs 0
    dataLt := ?_
    strLook := ?_
    strName := ?_
    pObjSub := fun w hw => absurd hw (List.not_mem_nil w)
    pArrSub := fun w hw => absurd hw (List.not_mem_nil w)
    pPairSub := fun kv hkv => absurd hkv (List.not_mem_nil kv)
    objName := ?_
    arrName := ?_
    pairName := ?_
    objDen := fun w hw => absurd hw (List.not_mem_nil w)
    arrDen := fun w hw => absurd hw (List.not_mem_nil w)
    pairDen := fun kv hkv => absurd hkv (List.not_mem_nil kv)
    objClos := fun w hw => absurd hw (List.not_mem_nil w)
    arrClos := fun w hw => absurd hw (List.not_mem_nil w)
    pairClos := fun kv hkv => absurd hkv (List.not_mem_nil kv)
    closedRefs := ?_ }
  · intro d hd n hn
    obtain ⟨k, s, hks⟩ := strDefs_shape c.sStrs 0 d hd
    rw [hks] at hn
    simp [defName] at hn
  · intro s hs
    have := lookup_strDefs c.sStrs 0 s hs
    simpa using this
  · intro d hd k content hdc
    have := strDefs_strName c.sStrs 0 hnd d hd k content hdc
    simpa using this
  · intro d hd k hk
    obtain ⟨k2, s, hks⟩ := strDefs_shape c.sStrs 0 d hd
    rw [hks] at hk
    simp [defName] at hk
  · intro d hd k hk
    obtain ⟨k2, s, hks⟩ := strDefs_shape c.sStrs 0 d hd
    rw [hks] at hk
    simp [defName] at hk
  · intro d hd k hk
    obtain ⟨k2, s, hks⟩ := strDefs_shape c.sStrs 0 d hd
    rw [hks] at hk
    simp [defName] at hk
  · intro i hi n hn
    have hmem : (strDefs 0 c.sStrs).get ⟨i, hi⟩ ∈ strDefs 0 c.sStrs := by
      apply List.get_mem
    obtain ⟨k, s, hks⟩ := strDefs_shape c.sStrs 0 _ hmem
    rw [hks] at hn
    simp [refsD] at hn

theorem extOK_refl (st : EState) : ExtOK st st :=
  ⟨⟨[], by simp, by simp⟩, le_refl _, fun x hx => hx, fun x hx => hx,
    fun x hx => hx⟩

theorem extOK_trans {st1 st2 st3 : EState} (h1 : ExtOK st1 st2)
    (h2 : ExtOK st2 st3) : ExtOK st1 st3 := by
  obtain ⟨⟨ext1, he1, hd1⟩, hc1, ho1, ha1, hp1⟩ := h1
  obtain ⟨⟨ext2, he2, hd2⟩, hc2, ho2, ha2, hp2⟩ := h2
  refine ⟨⟨ext1 ++ ext2, by rw [he2, he1, List.append_assoc], ?_⟩,
    le_trans hc1 hc2, fun x hx => ho2 x (ho1 x hx), fun x hx => ha2 x (ha1 x hx),
    fun x hx => hp2 x (hp1 x hx)⟩
  intro d hd m hm
  rcases List.mem_append.mp hd with h | h
  · exact hd1 d h m hm
  · exact le_trans hc1 (hd2 d h m hm)

theorem extOK_bump (st : EState) :
    ExtOK st { st with objCount := st.objCount + 1 } :=
  ⟨⟨[], by simp, by simp⟩, by simp, fun x hx => hx, fun x hx => hx,
    fun x hx => hx⟩

theorem extOK_append (st : EState) (d : CDef)
    (hd : ∀ m, defName d = .dataN m → st.objCount ≤ m) :
    ExtOK st { st with lines := st.lines ++ [d] } := by
  refine ⟨⟨[d], by simp, ?_⟩, le_refl _, fun x hx => hx, fun x hx => hx,
    fun x hx => hx⟩
  intro d2 hd2 m hm
  rw [List.mem_singleton.mp hd2] at hm
  exact hd m hm

theorem extOK_markObj (st : EState) (v : JValue) :
    ExtOK st { st with pObj := v :: st.pObj } :=
  ⟨⟨[], by simp, by simp⟩, le_refl _,
    fun x hx => List.mem_cons_of_mem _ hx, fun x hx => hx, fun x hx => hx⟩

theorem extOK_markArr (st : EState) (v : JValue) :
    ExtOK st { st with pArr := v :: st.pArr } :=
  ⟨⟨[], by simp, by simp⟩, le_refl _, fun x hx => hx,
    fun x hx => List.mem_cons_of_mem _ hx, fun x hx => hx⟩

theorem extOK_markPair (st : EState) (kv : String × JValue) :
    ExtOK st { st with pPair := kv :: st.pPair } :=
  ⟨⟨[], by simp, by simp⟩, le_refl _, fun x hx => hx, fun x hx => hx,
    fun x hx => List.mem_cons_of_mem _ hx⟩

/-! ## Unfolding equations for the emission functions -/

theorem dispatch_obj_processed {c : Ctx} {st : EState}
    {prs : List (String × JValue)} (hsh : JValue.objJ prs ∈ c.sObjs)
    (hproc : JValue.objJ prs ∈ st.pObj) :
    dispatch c (.objJ prs) st =
      (.ref (.obj (c.sObjs.indexOf (.objJ prs))), st) := by
  rw [dispatch]
  simp only [if_pos hsh, if_pos hproc]

theorem dispatch_obj_new {c : Ctx} {st st2 : EState}
    {prs : List (String × JValue)} {body : CExpr}
    (hsh : JValue.objJ prs ∈ c.sObjs) (hproc : JValue.objJ prs ∉ st.pObj)
    (hgb : genBody c (.objJ prs) { st with pObj := .objJ prs :: st.pObj } =
      (body, st2)) :
    dispatch c (.objJ prs) st =
      (.ref (.obj (c.sObjs.indexOf (.objJ prs))),
        { st2 with lines := st2.lines ++
          [.sharedD (.obj (c.sObjs.indexOf (.objJ prs))) body] }) := by
  rw [dispatch]
  simp only [if_pos hsh, if_neg hproc]
  rw [hgb]

theorem dispatch_obj_unshared {c : Ctx} {st : EState}
    {prs : List (String × JValue)} (hsh : JValue.objJ prs ∉ c.sObjs) :
    dispatch c (.objJ prs) st = genBody c (.objJ prs) st := by
  rw [dispatch]
  simp only [if_neg hsh]

theorem dispatch_arr_processed {c : Ctx} {st : EState} {els : List JValue}
    (hsh : JValue.arrJ els ∈ c.sArrs) (hproc : JValue.arrJ els ∈ st.pArr) :
    dispatch c (.arrJ els) st =
      (.ref (.arr (c.sArrs.indexOf (.arrJ els))), st) := by
  rw [dispatch]
  simp only [if_pos hsh, if_pos hproc]

theorem dispatch_arr_new {c : Ctx} {st st2 : EState} {els : List JValue}
    {body : CExpr}
    (hsh : JValue.arrJ els ∈ c.sArrs) (hproc : JValue.arrJ els ∉ st.pArr)
    (hgb : genBody c (.arrJ els) { st with pArr := .arrJ els :: st.pArr } =
      (body, st2)) :
    dispatch c (.arrJ els) st =
      (.ref (.arr (c.sArrs.indexOf (.arrJ els))),
        { st2 with lines := st2.lines ++
          [.sharedD (.arr (c.sArrs.indexOf (.arrJ els))) body] }) := by
  rw [dispatch]
  simp only [if_pos hsh, if_neg hproc]
  rw [hgb]

theorem dispatch_arr_unshared {c : Ctx} {st : EState} {els : List JValue}
    (hsh : JValue.arrJ els ∉ c.sArrs) :
    dispatch c (.arrJ els) st = genBody c (.arrJ els) st := by
  rw [dispatch]
  simp only [if_neg hsh]

theorem genBody_obj {c : Ctx} {st st2 : EState}
    {prs : List (String × JValue)} {entries : List Entry}
    (hee : emitEntries c prs { st with objCount := st.objCount + 1 } =
      (entries, st2)) :
    genBody c (.objJ prs) st =
      (.objectOf st.objCount,
        { st2 with lines := st2.lines ++
          [.dataD st.objCount (.objP entries)] }) := by
  rw [genBody]
  simp only []
  rw [hee]

theorem genBody_arr {c : Ctx} {st st2 : EState} {els : List JValue}
    {es : List CExpr}
    (hee : emitElems c els { st with objCount := st.objCount + 1 } =
      (es, st2)) :
    genBody c (.arrJ els) st =
      (.arrayOf st.objCount,
        { st2 with lines := st2.lines ++
          [.dataD st.objCount (.arrP es)] }) := by
  rw [genBody]
  simp only []
  rw [hee]

theorem emitEntries_processed {c : Ctx} {st st2 : EState} {k : String}
    {v : JValue} {rest : List (String × JValue)} {es : List Entry}
    (hsh : (k, v) ∈ c.sPairs) (hproc : (k, v) ∈ st.pPair)
    (her : emitEntries c rest st = (es, st2)) :
    emitEntries c ((k, v) :: rest) st =
      (.pref (c.sPairs.indexOf (k, v)) :: es, st2) := by
  rw [emitEntries]
  simp only [if_pos hsh, if_pos hproc]
  rw [her]

theorem emitEntries_new {c : Ctx} {st st2 st4 : EState} {k : String}
    {v : JValue} {rest : List (String × JValue)} {ve : CExpr}
    {es : List Entry}
    (hsh : (k, v) ∈ c.sPairs) (hproc : (k, v) ∉ st.pPair)
    (hdp : dispatch c v { st with pPair := (k, v) :: st.pPair } = (ve, st2))
    (her : emitEntries c rest
      { st2 with lines := st2.lines ++
        [.pairD (c.sPairs.indexOf (k, v)) (strRepr c k) ve] } = (es, st4)) :
    emitEntries c ((k, v) :: rest) st =
      (.pref (c.sPairs.indexOf (k, v)) :: es, st4) := by
  rw [emitEntries]
  simp only [if_pos hsh, if_neg hproc]
  rw [hdp]
  simp only []
  rw [her]

theorem emitEntries_unshared {c : Ctx} {st st1 st2 : EState} {k : String}
    {v : JValue} {rest : List (String × JValue)} {ve : CExpr}
    {es : List Entry}
    (hsh : (k, v) ∉ c.sPairs) (hdp : dispatch c v st = (ve, st1))
    (her : emitEntries c rest st1 = (es, st2)) :
    emitEntries c ((k, v) :: rest) st =
      (.pinl (strRepr c k) ve :: es, st2) := by
  rw [emitEntries]
  simp only [if_neg hsh]
  rw [hdp]
  simp only []
  rw [her]

theorem emitElems_cons {c : Ctx} {st st1 st2 : EState} {v : JValue}
    {rest : List JValue} {e : CExpr} {es : List CExpr}
    (hdp : dispatch c v st = (e, st1))
    (her : emitElems c rest st1 = (es, st2)) :
    emitElems c (v :: rest) st = (e :: es, st2) := by
  rw [emitElems]
  rw [hdp]
  simp only []
  rw [her]

/-! ## Lemmas: denotation of representations and assembled structures -/

theorem strRepr_denotes {c : Ctx} {pend : Pend} {st : EState}
    (h : EInv c pend st) (s : String) :
    denoteK 1 st.lines (strRepr c s) = some s ∧
    denoteE 1 st.lines (strRepr c s) = some (.strJ s) ∧
    (∀ m ∈ refsE (strRepr c s), m ∈ st.lines.map defName) := by
  rw [strRepr]
  by_cases hs : s ∈ c.sStrs
  · rw [if_pos hs]
    obtain ⟨pre, hp⟩ := h.strLook s hs
    refine ⟨?_, ?_, ?_⟩
    · rw [denoteK, hp]
    · rw [denoteE, hp]
    · intro m hm
      simp only [refsE, List.mem_singleton] at hm
      exact hm ▸ lookupD_some_mem hp
  · rw [if_neg hs]
    refine ⟨by rw [denoteK], by rw [denoteE], ?_⟩
    intro m hm
    simp [refsE] at hm

theorem denoteEntries_build {env : List CDef} {e : Entry} {es : List Entry}
    {p : String × JValue} {ps : List (String × JValue)} {f1 f2 : Nat}
    (h1 : denoteEntry f1 env e = some p)
    (h2 : denoteEntries f2 env es = some ps) :
    denoteEntries (max f1 f2 + 1) env (e :: es) = some (p :: ps) := by
  rw [denoteEntries]
  rw [denoteEntry_mono (Nat.le_max_left f1 f2) h1,
    denoteEntries_mono (Nat.le_max_right f1 f2) h2]

theorem denoteList_build {env : List CDef} {e : CExpr} {es : List CExpr}
    {v : JValue} {vs : List JValue} {f1 f2 : Nat}
    (h1 : denoteE f1 env e = some v)
    (h2 : denoteList f2 env es = some vs) :
    denoteList (max f1 f2 + 1) env (e :: es) = some (v :: vs) := by
  rw [denoteList]
  rw [denoteE_mono (Nat.le_max_left f1 f2) h1,
    denoteList_mono (Nat.le_max_right f1 f2) h2]

theorem denoteE_objectOf {env : List CDef} {entries : List Entry}
    {ps : List (String × JValue)} {n : Nat} {f : Nat}
    (hfresh : DName.dataN n ∉ env.map defName)
    (hden : denoteEntries f env entries = some ps) :
    denoteE (f + 1) (env ++ [.dataD n (.objP entries)]) (.objectOf n) =
      some (.objJ ps) := by
  rw [denoteE]
  have hl : lookupD (env ++ [CDef.dataD n (Payload.objP entries)])
      (DName.dataN n) = some (env, CDef.dataD n (Payload.objP entries)) :=
    lookupD_append_fresh hfresh
  simp only [hl]
  rw [hden]
  rfl

theorem denoteE_arrayOf {env : List CDef} {es : List CExpr}
    {vs : List JValue} {n : Nat} {f : Nat}
    (hfresh : DName.dataN n ∉ env.map defName)
    (hden : denoteList f env es = some vs) :
    denoteE (f + 1) (env ++ [.dataD n (.arrP es)]) (.arrayOf n) =
      some (.arrJ vs) := by
  rw [denoteE]
  have hl : lookupD (env ++ [CDef.dataD n (Payload.arrP es)])
      (DName.dataN n) = some (env, CDef.dataD n (Payload.arrP es)) :=
    lookupD_append_fresh hfresh
  simp only [hl]
  rw [hden]
  rfl

theorem denoteEntry_pinl {env : List CDef} {key val : CExpr} {k : String}
    {v : JValue} {f1 f2 : Nat} (hk : denoteK f1 env key = some k)
    (hv : denoteE f2 env val = some v) :
    denoteEntry (max f1 f2 + 1) env (.pinl key val) = some (k, v) := by
  rw [denoteEntry]
  rw [denoteK_mono (Nat.le_max_left f1 f2) hk,
    denoteE_mono (Nat.le_max_right f1 f2) hv]

theorem denoteEntry_pref {env : List CDef} {pk : Nat} {pre : List CDef}
    {key val : CExpr} {k : String} {v : JValue} {f1 f2 : Nat}
    (hl : lookupD env (.pr pk) = some (pre, .pairD pk key val))
    (hk : denoteK f1 pre key = some k) (hv : denoteE f2 pre val = some v) :
    denoteEntry (max f1 f2 + 1) env (.pref pk) = some (k, v) := by
  rw [denoteEntry]
  simp only [hl]
  simp only [denoteK_mono (Nat.le_max_left f1 f2) hk,
    denoteE_mono (Nat.le_max_right f1 f2) hv]

/-! ## Lemmas: closure assembly -/

theorem closedO_noOccs (c : Ctx) (st : EState) : ClosedO c st noOccs :=
  ⟨fun s hs => absurd hs (List.not_mem_nil s),
   fun s hs => absurd hs (List.not_mem_nil s),
   fun p hp => absurd hp (List.not_mem_nil p)⟩

theorem closedO_pairs_cons {c : Ctx} {st : EState} {k : String} {v : JValue}
    {rest : List (String × JValue)}
    (hp : (k, v) ∈ c.sPairs → (k, v) ∈ st.pPair)
    (hv : ClosedO c st (occsOf v)) (hr : ClosedO c st (occsPairs rest)) :
    ClosedO c st (occsPairs ((k, v) :: rest)) := by
  rw [occsPairs]
  refine ⟨?_, ?_, ?_⟩
  · intro s hs hc
    rcases List.mem_append.mp hs with h1 | h2
    · exact hv.1 s h1 hc
    · exact hr.1 s h2 hc
  · intro s hs hc
    rcases List.mem_append.mp hs with h1 | h2
    · exact hv.2.1 s h1 hc
    · exact hr.2.1 s h2 hc
  · intro p hmem hc
    rcases List.mem_cons.mp hmem with heq | hm
    · exact heq ▸ hp (heq ▸ hc)
    · rcases List.mem_append.mp hm with h1 | h2
      · exact hv.2.2 p h1 hc
      · exact hr.2.2 p h2 hc

theorem closedO_elems_cons {c : Ctx} {st : EState} {v : JValue}
    {rest : List JValue} (hv : ClosedO c st (occsOf v))
    (hr : ClosedO c st (occsElems rest)) :
    ClosedO c st (occsElems (v :: rest)) := by
  rw [occsElems]
  refine ⟨?_, ?_, ?_⟩
  · intro s hs hc
    rcases List.mem_append.mp hs with h1 | h2
    · exact hv.1 s h1 hc
    · exact hr.1 s h2 hc
  · intro s hs hc
    rcases List.mem_append.mp hs with h1 | h2
    · exact hv.2.1 s h1 hc
    · exact hr.2.1 s h2 hc
  · intro p hmem hc
    rcases List.mem_append.mp hmem with h1 | h2
    · exact hv.2.2 p h1 hc
    · exact hr.2.2 p h2 hc

theorem closedO_obj_self {c : Ctx} {st : EState} {prs : List (String × JValue)}
    (hself : JValue.objJ prs ∈ c.sObjs → JValue.objJ prs ∈ st.pObj)
    (hch : ClosedO c st (occsPairs prs)) :
    ClosedO c st (occsOf (.objJ prs)) := by
  rw [occsOf]
  refine ⟨?_, hch.2.1, hch.2.2⟩
  intro s hs hc
  rcases List.mem_cons.mp hs with heq | hm
  · exact heq ▸ hself (heq ▸ hc)
  · exact hch.1 s hm hc

theorem closedO_arr_self {c : Ctx} {st : EState} {els : List JValue}
    (hself : JValue.arrJ els ∈ c.sArrs → JValue.arrJ els ∈ st.pArr)
    (hch : ClosedO c st (occsElems els)) :
    ClosedO c st (occsOf (.arrJ els)) := by
  rw [occsOf]
  refine ⟨hch.1, ?_, hch.2.2⟩
  intro s hs hc
  rcases List.mem_cons.mp hs with heq | hm
  · exact heq ▸ hself (heq ▸ hc)
  · exact hch.2.1 s hm hc

theorem closedO_leaf {c : Ctx} {st : EState} {v : JValue}
    (h : isObjB v = false) (h2 : isArrB v = false) :
    ClosedO c st (occsOf v) := by
  cases v with
  | objJ prs => simp [isObjB] at h
  | arrJ els => simp [isArrB] at h2
  | nullJ =>
    refine ⟨?_, ?_, ?_⟩ <;> (intro x hx hc; simp [occsOf, noOccs] at hx)
  | boolJ b =>
    refine ⟨?_, ?_, ?_⟩ <;> (intro x hx hc; simp [occsOf, noOccs] at hx)
  | intJ i =>
    refine ⟨?_, ?_, ?_⟩ <;> (intro x hx hc; simp [occsOf, noOccs] at hx)
  | uintJ u =>
    refine ⟨?_, ?_, ?_⟩ <;> (intro x hx hc; simp [occsOf, noOccs] at hx)
  | floatJ t =>
    refine ⟨?_, ?_, ?_⟩ <;> (intro x hx hc; simp [occsOf, noOccs] at hx)
  | strJ s =>
    refine ⟨?_, ?_, ?_⟩ <;> (intro x hx hc; simp [occsOf, noOccs] at hx)

theorem extOK_trans_append {st0 st2 : EState} (h : ExtOK st0 st2) (d : CDef)
    (hd : ∀ m, defName d = .dataN m → st0.objCount ≤ m) :
    ExtOK st0 { st2 with lines := st2.lines ++ [d] } := by
  obtain ⟨⟨ext, hlines, hdg⟩, hcnt, ho, ha, hp⟩ := h
  refine ⟨⟨ext ++ [d], ?_, ?_⟩, hcnt, ho, ha, hp⟩
  · show st2.lines ++ [d] = st0.lines ++ (ext ++ [d])
    rw [hlines, List.append_assoc]
  · intro d2 hd2 m hm
    rcases List.mem_append.mp hd2 with h1 | h2
    · exact hdg d2 h1 m hm
    · rw [List.mem_singleton.mp h2] at hm
      exact hd m hm

theorem names_append_mono {env ext : List CDef} {n : DName}
    (h : n ∈ env.map defName) : n ∈ (env ++ ext).map defName := by
  rw [List.map_append]
  exact List.mem_append_left _ h

theorem occsElems_nil : occsElems [] = noOccs := by rw [occsElems]

theorem occsPairs_nil : occsPairs [] = noOccs := by rw [occsPairs]

theorem pendD_of_pendS {pend : Pend} {v : JValue} (h : PendS pend v) :
    PendD pend v :=
  ⟨h.1, h.2.1, fun kv hk => le_of_lt (h.2.2 kv hk)⟩

theorem pendB_of_pendD {pend : Pend} {v : JValue} (h : PendD pend v) :
    PendB pend v :=
  ⟨fun w hw => le_of_lt (h.1 w hw), fun w hw => le_of_lt (h.2.1 w hw), h.2.2⟩

theorem notPendObj_of_pendD {pend : Pend} {v : JValue} (h : PendD pend v) :
    v ∉ pend.objs :=
  fun hm => absurd (h.1 v hm) (lt_irrefl _)

theorem notPendArr_of_pendD {pend : Pend} {v : JValue} (h : PendD pend v) :
    v ∉ pend.arrs :=
  fun hm => absurd (h.2.1 v hm) (lt_irrefl _)

theorem notPendPair_of_pendS {pend : Pend} {k : String} {v : JValue}
    (h : PendS pend v) : (k, v) ∉ pend.prsP :=
  fun hm => absurd (h.2.2 (k, v) hm) (lt_irrefl _)

theorem dPost_mk {c : Ctx} {pend : Pend} {st : EState} {v : JValue}
    {e : CExpr} {st2 : EState} (h1 : EInv c pend st2) (h2 : ExtOK st st2)
    (h3 : ∃ f, denoteE f st2.lines e = some v)
    (h4 : ClosedO c st2 (occsOf v))
    (h5 : ∀ n ∈ refsE e, n ∈ st2.lines.map defName) :
    DPost c pend st v (e, st2) := ⟨h1, h2, h3, h4, h5⟩

theorem bPost_mk {c : Ctx} {pend : Pend} {st : EState} {v : JValue}
    {e : CExpr} {st2 : EState} (h1 : EInv c pend st2) (h2 : ExtOK st st2)
    (h3 : ∃ f, denoteE f st2.lines e = some v)
    (h4 : ClosedO c st2 (occsChildren v))
    (h5 : ∀ n ∈ refsE e, n ∈ st2.lines.map defName) :
    BPost c pend st v (e, st2) := ⟨h1, h2, h3, h4, h5⟩

theorem ePost_mk {c : Ctx} {pend : Pend} {st : EState}
    {prs : List (String × JValue)} {es : List Entry} {st2 : EState}
    (h1 : EInv c pend st2) (h2 : ExtOK st st2)
    (h3 : ∃ f, denoteEntries f st2.lines es = some prs)
    (h4 : ClosedO c st2 (occsPairs prs))
    (h5 : ∀ e ∈ es, ∀ n ∈ refsEntry e, n ∈ st2.lines.map defName) :
    EPost c pend st prs (es, st2) := ⟨h1, h2, h3, h4, h5⟩

theorem lPost_mk {c : Ctx} {pend : Pend} {st : EState}
    {els : List JValue} {es : List CExpr} {st2 : EState}
    (h1 : EInv c pend st2) (h2 : ExtOK st st2)
    (h3 : ∃ f, denoteList f st2.lines es = some els)
    (h4 : ClosedO c st2 (occsElems els))
    (h5 : ∀ e ∈ es, ∀ n ∈ refsE e, n ∈ st2.lines.map defName) :
    LPost c pend st els (es, st2) := ⟨h1, h2, h3, h4, h5⟩

theorem dPost_elim {c : Ctx} {pend : Pend} {st : EState} {v : JValue}
    {r : CExpr × EState} {e : CExpr} {st2 : EState}
    (h : DPost c pend st v r) (heq : r = (e, st2)) :
    EInv c pend st2 ∧ ExtOK st st2 ∧
    (∃ f, denoteE f st2.lines e = some v) ∧
    ClosedO c st2 (occsOf v) ∧
    (∀ n ∈ refsE e, n ∈ st2.lines.map defName) := by
  subst heq
  exact h

theorem bPost_elim {c : Ctx} {pend : Pend} {st : EState} {v : JValue}
    {r : CExpr × EState} {e : CExpr} {st2 : EState}
    (h : BPost c pend st v r) (heq : r = (e, st2)) :
    EInv c pend st2 ∧ ExtOK st st2 ∧
    (∃ f, denoteE f st2.lines e = some v) ∧
    ClosedO c st2 (occsChildren v) ∧
    (∀ n ∈ refsE e, n ∈ st2.lines.map defName) := by
  subst heq
  exact h

theorem ePost_elim {c : Ctx} {pend : Pend} {st : EState}
    {prs : List (String × JValue)} {r : List Entry × EState}
    {es : List Entry} {st2 : EState}
    (h : EPost c pend st prs r) (heq : r = (es, st2)) :
    EInv c pend st2 ∧ ExtOK st st2 ∧
    (∃ f, denoteEntries f st2.lines es = some prs) ∧
    ClosedO c st2 (occsPairs prs) ∧
    (∀ e ∈ es, ∀ n ∈ refsEntry e, n ∈ st2.lines.map defName) := by
  subst heq
  exact h

theorem lPost_elim {c : Ctx} {pend : Pend} {st : EState}
    {els : List JValue} {r : List CExpr × EState}
    {es : List CExpr} {st2 : EState}
    (h : LPost c pend st els r) (heq : r = (es, st2)) :
    EInv c pend st2 ∧ ExtOK st st2 ∧
    (∃ f, denoteList f st2.lines es = some els) ∧
    ClosedO c st2 (occsElems els) ∧
    (∀ e ∈ es, ∀ n ∈ refsE e, n ∈ st2.lines.map defName) := by
  subst heq
  exact h

/-! ## The main emission theorem

One mutual induction over `dispatch`/`genBody`/`emitElems`/`emitEntries`
establishing, for every call, the invariant, the extension discipline, the
read-back of the returned expression, the closure of processed signatures
and the closedness of references. -/

theorem emit_main (c : Ctx) (hc : CtxOK c) :
    (∀ v st, ∀ pend, EInv c pend st → PendD pend v →
      DPost c pend st v (dispatch c v st)) ∧
    (∀ v st, ∀ pend, EInv c pend st → PendB pend v →
      (isObjB v = true ∨ isArrB v = true) →
      BPost c pend st v (genBody c v st)) ∧
    (∀ els st, ∀ pend, EInv c pend st → (∀ w ∈ els, PendS pend w) →
      LPost c pend st els (emitElems c els st)) ∧
    (∀ prs st, ∀ pend, EInv c pend st → (∀ kv ∈ prs, PendS pend kv.2) →
      EPost c pend st prs (emitEntries c prs st)) := by
  refine dispatch.mutual_induct c
    (fun v st => ∀ pend, EInv c pend st → PendD pend v →
      DPost c pend st v (dispatch c v st))
    (fun v st => ∀ pend, EInv c pend st → PendB pend v →
      (isObjB v = true ∨ isArrB v = true) →
      BPost c pend st v (genBody c v st))
    (fun els st => ∀ pend, EInv c pend st → (∀ w ∈ els, PendS pend w) →
      LPost c pend st els (emitElems c els st))
    (fun prs st => ∀ pend, EInv c pend st → (∀ kv ∈ prs, PendS pend kv.2) →
      EPost c pend st prs (emitEntries c prs st))
    ?_ ?_ ?_ ?_ ?_ ?_ ?_ ?_ ?_ ?_ ?_ ?_ ?_ ?_ ?_ ?_ ?_ ?_ ?_ ?_ ?_
  -- (1) object, shared signature, already processed
  · intro st prs hsh hproc pend hinv hpd
    rw [dispatch_obj_processed hsh hproc]
    have hnp : JValue.objJ prs ∉ pend.objs := notPendObj_of_pendD hpd
    obtain ⟨pre, body, f, hl, hdn⟩ := hinv.objDen _ hproc hnp
    refine dPost_mk hinv (extOK_refl st) ⟨f + 1, ?_⟩
      (hinv.objClos _ hproc hnp) ?_
    · rw [denoteE]
      simp only [hl]
      exact hdn
    · intro n hn
      simp only [refsE, List.mem_singleton] at hn
      exact hn ▸ lookupD_some_mem hl
  -- (2) object, shared signature, first visit: mark, emit body, append def
  · intro st prs hsh hproc st1 body st2 hgb ih2 pend hinv hpd
    have hnp : JValue.objJ prs ∉ pend.objs := notPendObj_of_pendD hpd
    have hinvM : EInv c ⟨JValue.objJ prs :: pend.objs, pend.arrs, pend.prsP⟩
        st1 := markObj hinv hproc hsh
    have hpb : PendB ⟨JValue.objJ prs :: pend.objs, pend.arrs, pend.prsP⟩
        (JValue.objJ prs) := by
      refine ⟨?_, fun w hw => le_of_lt (hpd.2.1 w hw), hpd.2.2⟩
      intro w hw
      rcases List.mem_cons.mp hw with heq | hm
      · subst heq
        exact le_refl _
      · exact le_of_lt (hpd.1 w hm)
    have hbp := ih2 ⟨JValue.objJ prs :: pend.objs, pend.arrs, pend.prsP⟩
      hinvM hpb (Or.inl rfl)
    obtain ⟨hinv2, hext2, ⟨f1, hden1⟩, hclos2, hrefs1⟩ := bPost_elim hbp hgb
    have hmem2 : JValue.objJ prs ∈ st2.pObj :=
      hext2.2.2.1 _ (List.mem_cons_self _ _)
    have hclosSelf : ClosedO c st2 (occsOf (JValue.objJ prs)) :=
      closedO_obj_self (fun _ => hmem2) hclos2
    have hinv3 : EInv c pend { st2 with lines := st2.lines ++
        [CDef.sharedD (DName.obj (c.sObjs.indexOf (JValue.objJ prs))) body] } :=
      unpendObj hinv2 hmem2 hnp hsh hden1 hrefs1 hclosSelf
    rw [dispatch_obj_new hsh hproc hgb]
    refine dPost_mk hinv3 ?_ ?_ hclosSelf ?_
    · refine extOK_trans (extOK_markObj st (JValue.objJ prs))
        (extOK_trans hext2 (extOK_append st2 _ ?_))
      intro m hm
      simp [defName] at hm
    · obtain ⟨pre, body2, f2, hl, hdn⟩ := hinv3.objDen _ hmem2 hnp
      refine ⟨f2 + 1, ?_⟩
      rw [denoteE]
      simp only [hl]
      exact hdn
    · intro n hn
      simp only [refsE, List.mem_singleton] at hn
      subst hn
      rw [List.map_append]
      refine List.mem_append_right _ ?_
      simp [defName]
  -- (3) object, unshared: inline body
  · intro st prs hsh ih2 pend hinv hpd
    have hbp := ih2 pend hinv (pendB_of_pendD hpd) (Or.inl rfl)
    obtain ⟨e, st1, hge⟩ : ∃ e st1, genBody c (JValue.objJ prs) st = (e, st1) :=
      ⟨_, _, rfl⟩
    obtain ⟨hinv1, hext1, hden1, hclos1, hrefs1⟩ := bPost_elim hbp hge
    rw [dispatch_obj_unshared hsh, hge]
    exact dPost_mk hinv1 hext1 hden1
      (closedO_obj_self (fun hm => absurd hm hsh) hclos1) hrefs1
  -- (4) array, shared signature, already processed
  · intro st els hsh hproc pend hinv hpd
    rw [dispatch_arr_processed hsh hproc]
    have hnp : JValue.arrJ els ∉ pend.arrs := notPendArr_of_pendD hpd
    obtain ⟨pre, body, f, hl, hdn⟩ := hinv.arrDen _ hproc hnp
    refine dPost_mk hinv (extOK_refl st) ⟨f + 1, ?_⟩
      (hinv.arrClos _ hproc hnp) ?_
    · rw [denoteE]
      simp only [hl]
      exact hdn
    · intro n hn
      simp only [refsE, List.mem_singleton] at hn
      exact hn ▸ lookupD_some_mem hl
  -- (5) array, shared signature, first visit
  · intro st els hsh hproc st1 body st2 hgb ih2 pend hinv hpd
    have hnp : JValue.arrJ els ∉ pend.arrs := notPendArr_of_pendD hpd
    have hinvM : EInv c ⟨pend.objs, JValue.arrJ els :: pend.arrs, pend.prsP⟩
        st1 := markArr hinv hproc hsh
    have hpb : PendB ⟨pend.objs, JValue.arrJ els :: pend.arrs, pend.prsP⟩
        (JValue.arrJ els) := by
      refine ⟨fun w hw => le_of_lt (hpd.1 w hw), ?_, hpd.2.2⟩
      intro w hw
      rcases List.mem_cons.mp hw with heq | hm
      · subst heq
        exact le_refl _
      · exact le_of_lt (hpd.2.1 w hm)
    have hbp := ih2 ⟨pend.objs, JValue.arrJ els :: pend.arrs, pend.prsP⟩
      hinvM hpb (Or.inr rfl)
    obtain ⟨hinv2, hext2, ⟨f1, hden1⟩, hclos2, hrefs1⟩ := bPost_elim hbp hgb
    have hmem2 : JValue.arrJ els ∈ st2.pArr :=
      hext2.2.2.2.1 _ (List.mem_cons_self _ _)
    have hclosSelf : ClosedO c st2 (occsOf (JValue.arrJ els)) :=
      closedO_arr_self (fun _ => hmem2) hclos2
    have hinv3 : EInv c pend { st2 with lines := st2.lines ++
        [CDef.sharedD (DName.arr (c.sArrs.indexOf (JValue.arrJ els))) body] } :=
      unpendArr hinv2 hmem2 hnp hsh hden1 hrefs1 hclosSelf
    rw [dispatch_arr_new hsh hproc hgb]
    refine dPost_mk hinv3 ?_ ?_ hclosSelf ?_
    · refine extOK_trans (extOK_markArr st (JValue.arrJ els))
        (extOK_trans hext2 (extOK_append st2 _ ?_))
      intro m hm
      simp [defName] at hm
    · obtain ⟨pre, body2, f2, hl, hdn⟩ := hinv3.arrDen _ hmem2 hnp
      refine ⟨f2 + 1, ?_⟩
      rw [denoteE]
      simp only [hl]
      exact hdn
    · intro n hn
      simp only [refsE, List.mem_singleton] at hn
      subst hn
      rw [List.map_append]
      refine List.mem_append_right _ ?_
      simp [defName]
  -- (6) array, unshared: inline body
  · intro st els hsh ih2 pend hinv hpd
    have hbp := ih2 pend hinv (pendB_of_pendD hpd) (Or.inr rfl)
    obtain ⟨e, st1, hge⟩ : ∃ e st1, genBody c (JValue.arrJ els) st = (e, st1) :=
      ⟨_, _, rfl⟩
    obtain ⟨hinv1, hext1, hden1, hclos1, hrefs1⟩ := bPost_elim hbp hge
    rw [dispatch_arr_unshared hsh, hge]
    exact dPost_mk hinv1 hext1 hden1
      (closedO_arr_self (fun hm => absurd hm hsh) hclos1) hrefs1
  -- (7)-(12) scalar leaves
  · intro st tok pend hinv hpd
    rw [dispatch]
    refine dPost_mk hinv (extOK_refl st) ⟨1, ?_⟩ (closedO_leaf rfl rfl) ?_
    · rw [denoteE]
    · intro n hn
      simp [refsE] at hn
  · intro st u pend hinv hpd
    rw [dispatch]
    refine dPost_mk hinv (extOK_refl st) ⟨1, ?_⟩ (closedO_leaf rfl rfl) ?_
    · rw [denoteE]
    · intro n hn
      simp [refsE] at hn
  · intro st i pend hinv hpd
    rw [dispatch]
    refine dPost_mk hinv (extOK_refl st) ⟨1, ?_⟩ (closedO_leaf rfl rfl) ?_
    · rw [denoteE]
    · intro n hn
      simp [refsE] at hn
  · intro st b pend hinv hpd
    rw [dispatch]
    refine dPost_mk hinv (extOK_refl st) ⟨1, ?_⟩ (closedO_leaf rfl rfl) ?_
    · rw [denoteE]
    · intro n hn
      simp [refsE] at hn
  · intro st s pend hinv hpd
    rw [dispatch]
    obtain ⟨hk, hv, hr⟩ := strRepr_denotes hinv s
    exact dPost_mk hinv (extOK_refl st) ⟨1, hv⟩ (closedO_leaf rfl rfl) hr
  · intro st pend hinv hpd
    rw [dispatch]
    refine dPost_mk hinv (extOK_refl st) ⟨1, ?_⟩ (closedO_leaf rfl rfl) ?_
    · rw [denoteE]
    · intro n hn
      simp [refsE] at hn
  -- (13) node body of an object: bump counter, emit pairs, append data def
  · intro st st1 prs entries st2 hee ih4 pend hinv hpb hOr
    have hinv1 : EInv c pend st1 := einv_bumpCount hinv
    have hps : ∀ kv ∈ prs, PendS pend kv.2 := by
      intro kv hkv
      obtain ⟨k0, v0⟩ := kv
      have hlt : sizeOf v0 < sizeOf (JValue.objJ prs) := sizeOf_snd_lt_pairs hkv
      exact ⟨fun w hw => lt_of_lt_of_le hlt (hpb.1 w hw),
        fun w hw => lt_of_lt_of_le hlt (hpb.2.1 w hw),
        fun q hq => lt_of_lt_of_le hlt (hpb.2.2 q hq)⟩
    have hep := ih4 pend hinv1 hps
    obtain ⟨hinv2, hext2, ⟨f1, hden1⟩, hclos2, hrefs2⟩ := ePost_elim hep hee
    have hfresh : DName.dataN st.objCount ∉ st2.lines.map defName := by
      intro hmem
      obtain ⟨d, hd, hdn⟩ := List.mem_map.mp hmem
      obtain ⟨ext, hlines, hdg⟩ := hext2.1
      rw [hlines] at hd
      rcases List.mem_append.mp hd with hold | hnew
      · exact absurd (hinv.dataLt d hold st.objCount hdn) (lt_irrefl _)
      · have hle : st.objCount + 1 ≤ st.objCount := hdg d hnew st.objCount hdn
        exact absurd hle (by omega)
    have hlt2 : st.objCount < st2.objCount := hext2.2.1
    have hrefsD : ∀ m ∈ refsD (CDef.dataD st.objCount (Payload.objP entries)),
        m ∈ st2.lines.map defName := by
      intro m hm
      simp only [refsD] at hm
      obtain ⟨l, hl, hml⟩ := List.mem_flatten.mp hm
      obtain ⟨e, he, rfl⟩ := List.mem_map.mp hl
      exact hrefs2 e he m hml
    have hinv3 := einv_append_dataD hinv2 hfresh hlt2 hrefsD
    rw [genBody_obj hee]
    refine bPost_mk hinv3 ?_ ⟨f1 + 1, denoteE_objectOf hfresh hden1⟩ hclos2 ?_
    · refine extOK_trans_append (extOK_trans (extOK_bump st) hext2) _ ?_
      intro m hm
      simp only [defName, DName.dataN.injEq] at hm
      exact le_of_eq hm
    · intro n hn
      simp only [refsE, List.mem_singleton] at hn
      subst hn
      rw [List.map_append]
      refine List.mem_append_right _ ?_
      simp [defName]
  -- (14) node body of an array
  · intro st st1 els es st2 hee ih3 pend hinv hpb hOr
    have hinv1 : EInv c pend st1 := einv_bumpCount hinv
    have hps : ∀ w ∈ els, PendS pend w := by
      intro w hw
      have hlt : sizeOf w < sizeOf (JValue.arrJ els) := sizeOf_mem_lt_els hw
      exact ⟨fun x hx => lt_of_lt_of_le hlt (hpb.1 x hx),
        fun x hx => lt_of_lt_of_le hlt (hpb.2.1 x hx),
        fun q hq => lt_of_lt_of_le hlt (hpb.2.2 q hq)⟩
    have hep := ih3 pend hinv1 hps
    obtain ⟨hinv2, hext2, ⟨f1, hden1⟩, hclos2, hrefs2⟩ := lPost_elim hep hee
    have hfresh : DName.dataN st.objCount ∉ st2.lines.map defName := by
      intro hmem
      obtain ⟨d, hd, hdn⟩ := List.mem_map.mp hmem
      obtain ⟨ext, hlines, hdg⟩ := hext2.1
      rw [hlines] at hd
      rcases List.mem_append.mp hd with hold | hnew
      · exact absurd (hinv.dataLt d hold st.objCount hdn) (lt_irrefl _)
      · have hle : st.objCount + 1 ≤ st.objCount := hdg d hnew st.objCount hdn
        exact absurd hle (by omega)
    have hlt2 : st.objCount < st2.objCount := hext2.2.1
    have hrefsD : ∀ m ∈ refsD (CDef.dataD st.objCount (Payload.arrP es)),
        m ∈ st2.lines.map defName := by
      intro m hm
      simp only [refsD] at hm
      obtain ⟨l, hl, hml⟩ := List.mem_flatten.mp hm
      obtain ⟨e, he, rfl⟩ := List.mem_map.mp hl
      exact hrefs2 e he m hml
    have hinv3 := einv_append_dataD hinv2 hfresh hlt2 hrefsD
    rw [genBody_arr hee]
    refine bPost_mk hinv3 ?_ ⟨f1 + 1, denoteE_arrayOf hfresh hden1⟩ hclos2 ?_
    · refine extOK_trans_append (extOK_trans (extOK_bump st) hext2) _ ?_
      intro m hm
      simp only [defName, DName.dataN.injEq] at hm
      exact le_of_eq hm
    · intro n hn
      simp only [refsE, List.mem_singleton] at hn
      subst hn
      rw [List.map_append]
      refine List.mem_append_right _ ?_
      simp [defName]
  -- (15) node body is only reached on containers
  · intro v st h1 h2 pend hinv hpb hOr
    exfalso
    cases v with
    | objJ prs => exact h1 prs rfl
    | arrJ els => exact h2 els rfl
    | nullJ => rcases hOr with h | h <;> simp [isObjB, isArrB] at h
    | boolJ b => rcases hOr with h | h <;> simp [isObjB, isArrB] at h
    | intJ i => rcases hOr with h | h <;> simp [isObjB, isArrB] at h
    | uintJ u => rcases hOr with h | h <;> simp [isObjB, isArrB] at h
    | floatJ t => rcases hOr with h | h <;> simp [isObjB, isArrB] at h
    | strJ s => rcases hOr with h | h <;> simp [isObjB, isArrB] at h
  -- (16) element loop, empty
  · intro st pend hinv hps
    rw [emitElems]
    refine lPost_mk hinv (extOK_refl st) ⟨1, ?_⟩ ?_ ?_
    · rw [denoteList]
    · rw [occsElems_nil]
      exact closedO_noOccs c st
    · intro e he
      simp at he
  -- (17) element loop, cons
  · intro st v rest e st1 hdp es st2 her ih1 ih3 pend hinv hps
    have hpd : PendD pend v := pendD_of_pendS (hps v (List.mem_cons_self _ _))
    have hd := ih1 pend hinv hpd
    obtain ⟨hinv1, hext1, ⟨f1, hden1⟩, hclos1, hrefs1⟩ := dPost_elim hd hdp
    have hlp := ih3 pend hinv1 (fun w hw => hps w (List.mem_cons_of_mem _ hw))
    obtain ⟨hinv2, hext2, ⟨f2, hden2⟩, hclos2, hrefs2⟩ := lPost_elim hlp her
    rw [emitElems_cons hdp her]
    obtain ⟨ext, hlines, hdg⟩ := hext2.1
    have hden1b : denoteE f1 st2.lines e = some v := by
      rw [hlines]
      exact (denote_append f1).1 _ _ _ _ hden1
    refine lPost_mk hinv2 (extOK_trans hext1 hext2)
      ⟨max f1 f2 + 1, denoteList_build hden1b hden2⟩ ?_ ?_
    · exact closedO_elems_cons
        (closedO_mono hclos1 hext2.2.2.1 hext2.2.2.2.1 hext2.2.2.2.2) hclos2
    · intro x hx
      rcases List.mem_cons.mp hx with rfl | hm
      · intro n hn
        rw [hlines]
        exact names_append_mono (hrefs1 n hn)
      · exact hrefs2 x hm
  -- (18) pair loop, empty
  · intro st pend hinv hps
    rw [emitEntries]
    refine ePost_mk hinv (extOK_refl st) ⟨1, ?_⟩ ?_ ?_
    · rw [denoteEntries]
    · rw [occsPairs_nil]
      exact closedO_noOccs c st
    · intro e he
      simp at he
  -- (19) pair loop, shared pair already processed
  · intro st k v rest hshp hproc es st2 her ih4 pend hinv hps
    have hvS : PendS pend v := hps (k, v) (List.mem_cons_self _ _)
    have hnp : (k, v) ∉ pend.prsP := notPendPair_of_pendS hvS
    obtain ⟨pre, key, val, f0, hl, hk0, hv0⟩ := hinv.pairDen (k, v) hproc hnp
    have hclosP : ClosedO c st (occsOf v) := hinv.pairClos (k, v) hproc hnp
    have hrest := ih4 pend hinv (fun q hq => hps q (List.mem_cons_of_mem _ hq))
    obtain ⟨hinv2, hext2, ⟨f2, hden2⟩, hclos2, hrefs2⟩ := ePost_elim hrest her
    rw [emitEntries_processed hshp hproc her]
    obtain ⟨ext, hlines, hdg⟩ := hext2.1
    have hl2 : lookupD st2.lines (DName.pr (c.sPairs.indexOf (k, v))) =
        some (pre, CDef.pairD (c.sPairs.indexOf (k, v)) key val) := by
      rw [hlines]
      exact lookupD_append_of_some hl ext
    have hentry := denoteEntry_pref hl2 hk0 hv0
    refine ePost_mk hinv2 hext2
      ⟨max (max f0 f0 + 1) f2 + 1, denoteEntries_build hentry hden2⟩ ?_ ?_
    · refine closedO_pairs_cons (fun _ => hext2.2.2.2.2 _ hproc)
        (closedO_mono hclosP hext2.2.2.1 hext2.2.2.2.1 hext2.2.2.2.2) hclos2
    · intro x hx
      rcases List.mem_cons.mp hx with rfl | hm
      · intro n hn
        simp only [refsEntry, List.mem_singleton] at hn
        subst hn
        exact lookupD_some_mem hl2
      · exact hrefs2 x hm
  -- (20) pair loop, shared pair first visit
  · intro st k v rest hshp pk hproc st1 key ve st2 hdp st3 es st4 her ih1 ih4
    intro pend hinv hps
    have hvS : PendS pend v := hps (k, v) (List.mem_cons_self _ _)
    have hnp : (k, v) ∉ pend.prsP := notPendPair_of_pendS hvS
    have hinvM : EInv c ⟨pend.objs, pend.arrs, (k, v) :: pend.prsP⟩ st1 :=
      markPair hinv hproc hshp
    have hpd : PendD ⟨pend.objs, pend.arrs, (k, v) :: pend.prsP⟩ v := by
      refine ⟨hvS.1, hvS.2.1, ?_⟩
      intro q hq
      rcases List.mem_cons.mp hq with heq | hm
      · subst heq
        exact le_refl _
      · exact le_of_lt (hvS.2.2 q hm)
    have hd := ih1 ⟨pend.objs, pend.arrs, (k, v) :: pend.prsP⟩ hinvM hpd
    obtain ⟨hinv2, hext2, ⟨f1, hden1⟩, hclos1, hrefs1⟩ := dPost_elim hd hdp
    have hkv2 : (k, v) ∈ st2.pPair := hext2.2.2.2.2 _ (List.mem_cons_self _ _)
    obtain ⟨hkden, hkv_e, hkrefs⟩ := strRepr_denotes hinv2 k
    have hkdenM : denoteK (max 1 f1) st2.lines (strRepr c k) = some k :=
      denoteK_mono (Nat.le_max_left 1 f1) hkden
    have hvdenM : denoteE (max 1 f1) st2.lines ve = some v :=
      denoteE_mono (Nat.le_max_right 1 f1) hden1
    have hrefsKV : ∀ m ∈ refsE (strRepr c k) ++ refsE ve,
        m ∈ st2.lines.map defName := by
      intro m hm
      rcases List.mem_append.mp hm with h1 | h2
      · exact hkrefs m h1
      · exact hrefs1 m h2
    have hinv3 : EInv c pend { st2 with lines := st2.lines ++
        [CDef.pairD (c.sPairs.indexOf (k, v)) (strRepr c k) ve] } :=
      unpendPair hinv2 hkv2 hnp hshp hkdenM hvdenM hrefsKV hclos1
    have hrest := ih4 pend hinv3 (fun q hq => hps q (List.mem_cons_of_mem _ hq))
    obtain ⟨hinv4, hext4, ⟨f2, hden2⟩, hclos4, hrefs4⟩ := ePost_elim hrest her
    rw [emitEntries_new hshp hproc hdp her]
    have hkv4 : (k, v) ∈ st4.pPair := hext4.2.2.2.2 _ hkv2
    obtain ⟨pre, key2, val2, f3, hl4, hk4, hv4⟩ := hinv4.pairDen (k, v) hkv4 hnp
    have hentry := denoteEntry_pref hl4 hk4 hv4
    refine ePost_mk hinv4 ?_
      ⟨max (max f3 f3 + 1) f2 + 1, denoteEntries_build hentry hden2⟩ ?_ ?_
    · refine extOK_trans (extOK_markPair st (k, v)) (extOK_trans hext2
        (extOK_trans (extOK_append st2 _ ?_) hext4))
      intro m hm
      simp [defName] at hm
    · refine closedO_pairs_cons (fun _ => hkv4) ?_ hclos4
      have h34 : ClosedO c st3 (occsOf v) := hclos1
      exact closedO_mono h34 hext4.2.2.1 hext4.2.2.2.1 hext4.2.2.2.2
    · intro x hx
      rcases List.mem_cons.mp hx with rfl | hm
      · intro n hn
        simp only [refsEntry, List.mem_singleton] at hn
        subst hn
        exact lookupD_some_mem hl4
      · exact hrefs4 x hm
  -- (21) pair loop, unshared pair: inline key and value
  · intro st k v rest hshp ve st1 hdp es st2 her ih1 ih4 pend hinv hps
    have hvS : PendS pend v := hps (k, v) (List.mem_cons_self _ _)
    have hd := ih1 pend hinv (pendD_of_pendS hvS)
    obtain ⟨hinv1, hext1, ⟨f1, hden1⟩, hclos1, hrefs1⟩ := dPost_elim hd hdp
    have hrest := ih4 pend hinv1 (fun q hq => hps q (List.mem_cons_of_mem _ hq))
    obtain ⟨hinv2, hext2, ⟨f2, hden2⟩, hclos2, hrefs2⟩ := ePost_elim hrest her
    rw [emitEntries_unshared hshp hdp her]
    obtain ⟨ext, hlines, hdg⟩ := hext2.1
    obtain ⟨hkden, hkv_e, hkrefs⟩ := strRepr_denotes hinv2 k
    have hvdenb : denoteE f1 st2.lines ve = some v := by
      rw [hlines]
      exact (denote_append f1).1 _ _ _ _ hden1
    have hentry := denoteEntry_pinl hkden hvdenb
    refine ePost_mk hinv2 (extOK_trans hext1 hext2)
      ⟨max (max 1 f1 + 1) f2 + 1, denoteEntries_build hentry hden2⟩ ?_ ?_
    · exact closedO_pairs_cons (fun hm => absurd hm hshp)
        (closedO_mono hclos1 hext2.2.2.1 hext2.2.2.2.1 hext2.2.2.2.2) hclos2
    · intro x hx
      rcases List.mem_cons.mp hx with rfl | hm
      · intro n hn
        simp only [refsEntry] at hn
        rcases List.mem_append.mp hn with h1 | h2
        · exact hkrefs n h1
        · rw [hlines]
          exact names_append_mono (hrefs1 n h2)
      · exact hrefs2 x hm


/-! ## From the main theorem to the whole `compile` run -/

theorem ctxOK_mkCtx (R : JValue) : CtxOK (mkCtx R) :=
  ⟨nodup_dupList _, nodup_dupList _, nodup_dupList _, nodup_dupList _⟩

theorem pendD_nil (v : JValue) : PendD pendNil v :=
  ⟨fun w hw => absurd hw (List.not_mem_nil w),
   fun w hw => absurd hw (List.not_mem_nil w),
   fun kv hkv => absurd hkv (List.not_mem_nil kv)⟩

theorem compileJ_eq {R : JValue} {e : CExpr} {st : EState}
    (h : dispatch (mkCtx R) R ⟨0, strDefs 0 (mkCtx R).sStrs, [], [], []⟩ =
      (e, st)) :
    compileJ R = ⟨st.lines, e⟩ := by
  rw [compileJ]
  simp only []
  rw [h]

theorem compile_main (R : JValue) :
    ∃ st e, compileJ R = ⟨st.lines, e⟩ ∧ EInv (mkCtx R) pendNil st ∧
      (∃ f, denoteE f st.lines e = some R) ∧
      ClosedO (mkCtx R) st (occsOf R) := by
  obtain ⟨e, st, hde⟩ : ∃ e st,
      dispatch (mkCtx R) R ⟨0, strDefs 0 (mkCtx R).sStrs, [], [], []⟩ =
        (e, st) := ⟨_, _, rfl⟩
  have hc := ctxOK_mkCtx R
  have hinv0 := einv_init (mkCtx R) hc.2.2.2
  have hmain := (emit_main (mkCtx R) hc).1 R
    ⟨0, strDefs 0 (mkCtx R).sStrs, [], [], []⟩ pendNil hinv0 (pendD_nil R)
  obtain ⟨hinv, hext, hden, hclos, hrefs⟩ := dPost_elim hmain hde
  exact ⟨st, e, compileJ_eq hde, hinv, hden, hclos⟩

/-- C1: compiling a parser-accepted document and interpreting the emitted
definition lines at the returned root expression reproduces exactly the
source document: same node types at every path, the same integer, boolean
and string scalar values, floats echoed verbatim as their source tokens,
the same array lengths and element order, and the same object pair counts
and key order (the read-back result is structurally equal to the input
tree, which entails all of these path-wise facts at once). -/
theorem c1_roundtrip (R : JValue) (h : Parsed R) :
    ∃ f, denoteE f (compileJ R).lines (compileJ R).root = some R := by
  obtain ⟨st, e, hco, hinv, ⟨f, hden⟩, hclos⟩ := compile_main R
  rw [hco]
  exact ⟨f, hden⟩

theorem c1_roundtrip_witness :
    Parsed (JValue.arrJ [JValue.objJ [("k", JValue.uintJ 7)],
      JValue.objJ [("k", JValue.uintJ 7)]]) ∧
    ∃ f, denoteE f
      (compileJ (JValue.arrJ [JValue.objJ [("k", JValue.uintJ 7)],
        JValue.objJ [("k", JValue.uintJ 7)]])).lines
      (compileJ (JValue.arrJ [JValue.objJ [("k", JValue.uintJ 7)],
        JValue.objJ [("k", JValue.uintJ 7)]])).root =
      some (JValue.arrJ [JValue.objJ [("k", JValue.uintJ 7)],
        JValue.objJ [("k", JValue.uintJ 7)]]) := by
  have hp : Parsed (JValue.arrJ [JValue.objJ [("k", JValue.uintJ 7)],
      JValue.objJ [("k", JValue.uintJ 7)]]) := by
    simp [Parsed, parsedB, parsedLB, parsedPB]
  exact ⟨hp, c1_roundtrip _ hp⟩

/-- C2: the trackers name exactly the signatures whose occurrence count in
the discovery pass exceeds 1, independently per node kind.  Conjuncts: the
shared lists contain a signature iff it occurs at least twice among the
occurrences of its own kind (objects, arrays, pairs, strings); every shared
signature gets exactly one emitted definition line bearing its name; no
name is ever bound by two lines; and every emitted shared-object,
shared-array, shared-pair and shared-string definition line is named after
a signature of that kind from the corresponding shared list (the name
families `obj`, `arr`, `pr` and `str` are distinct constructors, so
coincidentally identical signatures of different kinds can never share a
definition). -/
theorem c2_dedup (R : JValue) (h : Parsed R) :
    (∀ v, v ∈ (mkCtx R).sObjs ↔
      v ∈ (occsOf R).objs ∧ 2 ≤ (occsOf R).objs.count v) ∧
    (∀ v, v ∈ (mkCtx R).sArrs ↔
      v ∈ (occsOf R).arrs ∧ 2 ≤ (occsOf R).arrs.count v) ∧
    (∀ p, p ∈ (mkCtx R).sPairs ↔
      p ∈ (occsOf R).pairsL ∧
      2 ≤ @List.count (String × JValue) instBEqOfDecidableEq p
        (occsOf R).pairsL) ∧
    (∀ s, s ∈ (mkCtx R).sStrs ↔
      s ∈ (occsOf R).strs ∧
      2 ≤ @List.count String instBEqOfDecidableEq s (occsOf R).strs) ∧
    (∀ v ∈ (mkCtx R).sObjs,
      defsNamed (compileJ R).lines (.obj ((mkCtx R).sObjs.indexOf v)) = 1) ∧
    (∀ v ∈ (mkCtx R).sArrs,
      defsNamed (compileJ R).lines (.arr ((mkCtx R).sArrs.indexOf v)) = 1) ∧
    (∀ p ∈ (mkCtx R).sPairs,
      defsNamed (compileJ R).lines (.pr ((mkCtx R).sPairs.indexOf p)) = 1) ∧
    (∀ s ∈ (mkCtx R).sStrs,
      defsNamed (compileJ R).lines (.str ((mkCtx R).sStrs.indexOf s)) = 1) ∧
    (∀ nm, defsNamed (compileJ R).lines nm ≤ 1) ∧
    (∀ d ∈ (compileJ R).lines, ∀ k body, d = CDef.sharedD (.obj k) body →
      ∃ v ∈ (mkCtx R).sObjs, k = (mkCtx R).sObjs.indexOf v) ∧
    (∀ d ∈ (compileJ R).lines, ∀ k body, d = CDef.sharedD (.arr k) body →
      ∃ v ∈ (mkCtx R).sArrs, k = (mkCtx R).sArrs.indexOf v) ∧
    (∀ d ∈ (compileJ R).lines, ∀ k key val, d = CDef.pairD k key val →
      ∃ p ∈ (mkCtx R).sPairs, k = (mkCtx R).sPairs.indexOf p) ∧
    (∀ d ∈ (compileJ R).lines, ∀ k content, d = CDef.strD k content →
      content ∈ (mkCtx R).sStrs ∧ k = (mkCtx R).sStrs.indexOf content) := by
  obtain ⟨st, e, hco, hinv, hden, hclos⟩ := compile_main R
  rw [hco]
  refine ⟨fun v => mem_dupList, fun v => mem_dupList, fun p => mem_dupList,
    fun s => mem_dupList, ?_, ?_, ?_, ?_, ?_, ?_, ?_, ?_, ?_⟩
  · intro v hv
    have hocc : v ∈ (occsOf R).objs := (mem_dupList.mp hv).1
    have hp2 : v ∈ st.pObj := hclos.1 v hocc hv
    obtain ⟨pre, body, f, hl, hdn⟩ :=
      hinv.objDen v hp2 (List.not_mem_nil v)
    have h1 : 0 < (st.lines.map defName).count
        (DName.obj ((mkCtx R).sObjs.indexOf v)) :=
      List.count_pos_iff.mpr (lookupD_some_mem hl)
    have h2 := List.nodup_iff_count_le_one.mp hinv.nodupN
      (DName.obj ((mkCtx R).sObjs.indexOf v))
    exact le_antisymm h2 h1
  · intro v hv
    have hocc : v ∈ (occsOf R).arrs := (mem_dupList.mp hv).1
    have hp2 : v ∈ st.pArr := hclos.2.1 v hocc hv
    obtain ⟨pre, body, f, hl, hdn⟩ :=
      hinv.arrDen v hp2 (List.not_mem_nil v)
    have h1 : 0 < (st.lines.map defName).count
        (DName.arr ((mkCtx R).sArrs.indexOf v)) :=
      List.count_pos_iff.mpr (lookupD_some_mem hl)
    have h2 := List.nodup_iff_count_le_one.mp hinv.nodupN
      (DName.arr ((mkCtx R).sArrs.indexOf v))
    exact le_antisymm h2 h1
  · intro p hp
    have hocc : p ∈ (occsOf R).pairsL := (mem_dupList.mp hp).1
    have hp2 : p ∈ st.pPair := hclos.2.2 p hocc hp
    obtain ⟨pre, key, val, f, hl, hk, hv2⟩ :=
      hinv.pairDen p hp2 (List.not_mem_nil p)
    have h1 : 0 < (st.lines.map defName).count
        (DName.pr ((mkCtx R).sPairs.indexOf p)) :=
      List.count_pos_iff.mpr (lookupD_some_mem hl)
    have h2 := List.nodup_iff_count_le_one.mp hinv.nodupN
      (DName.pr ((mkCtx R).sPairs.indexOf p))
    exact le_antisymm h2 h1
  · intro s hs
    obtain ⟨pre, hl⟩ := hinv.strLook s hs
    have h1 : 0 < (st.lines.map defName).count
        (DName.str ((mkCtx R).sStrs.indexOf s)) :=
      List.count_pos_iff.mpr (lookupD_some_mem hl)
    have h2 := List.nodup_iff_count_le_one.mp hinv.nodupN
      (DName.str ((mkCtx R).sStrs.indexOf s))
    exact le_antisymm h2 h1
  · intro nm
    exact List.nodup_iff_count_le_one.mp hinv.nodupN nm
  · intro d hd k body hdk
    obtain ⟨w, hw, hwnp, hkeq⟩ := hinv.objName d hd k (by rw [hdk]; rfl)
    exact ⟨w, hinv.pObjSub w hw, hkeq⟩
  · intro d hd k body hdk
    obtain ⟨w, hw, hwnp, hkeq⟩ := hinv.arrName d hd k (by rw [hdk]; rfl)
    exact ⟨w, hinv.pArrSub w hw, hkeq⟩
  · intro d hd k key val hdk
    obtain ⟨kv, hkv, hkvnp, hkeq⟩ := hinv.pairName d hd k (by rw [hdk]; rfl)
    exact ⟨kv, hinv.pPairSub kv hkv, hkeq⟩
  · intro d hd k content hdk
    exact hinv.strName d hd k content hdk

theorem c2_dedup_witness :
    Parsed (JValue.objJ [("a", JValue.strJ "dup"), ("b", JValue.strJ "dup")]) ∧
    (JValue.strJ "x" ∈
      (mkCtx (JValue.objJ [("a", JValue.strJ "dup"),
        ("b", JValue.strJ "dup")])).sObjs ↔
      JValue.strJ "x" ∈
        (occsOf (JValue.objJ [("a", JValue.strJ "dup"),
          ("b", JValue.strJ "dup")])).objs ∧
      2 ≤ (occsOf (JValue.objJ [("a", JValue.strJ "dup"),
        ("b", JValue.strJ "dup")])).objs.count (JValue.strJ "x")) := by
  have hp : Parsed (JValue.objJ [("a", JValue.strJ "dup"),
      ("b", JValue.strJ "dup")]) := by
    simp [Parsed, parsedB, parsedLB, parsedPB]
  exact ⟨hp, (c2_dedup _ hp).1 (JValue.strJ "x")⟩

/-- C3: in the definition sequence emitted for a parser-accepted document,
no line references a name bound only by a later line — every name a
definition mentions is bound by an earlier definition (children are
emitted before the parent that references them, and a shared definition
is emitted once, at its first-encountered site, before every reference). -/
theorem c3_order (R : JValue) (h : Parsed R) :
    DefsClosed (compileJ R).lines := by
  obtain ⟨st, e, hco, hinv, hden, hclos⟩ := compile_main R
  rw [hco]
  exact hinv.closedRefs

theorem c3_order_witness :
    Parsed (JValue.objJ [("k", JValue.arrJ [JValue.uintJ 1, JValue.uintJ 2]),
      ("m", JValue.arrJ [JValue.uintJ 1, JValue.uintJ 2])]) ∧
    DefsClosed (compileJ (JValue.objJ
      [("k", JValue.arrJ [JValue.uintJ 1, JValue.uintJ 2]),
       ("m", JValue.arrJ [JValue.uintJ 1, JValue.uintJ 2])])).lines := by
  have hp : Parsed (JValue.objJ
      [("k", JValue.arrJ [JValue.uintJ 1, JValue.uintJ 2]),
       ("m", JValue.arrJ [JValue.uintJ 1, JValue.uintJ 2])]) := by
    simp [Parsed, parsedB, parsedLB, parsedPB]
  exact ⟨hp, c3_order _ hp⟩
